import Mathlib

/-!
Verification development for a repository with two DOCX utilities:
`src/skills/docx/generate_cover.py` (cover-page placeholder substitution)
and `src/skills/docx/heading_to_akn.py` (heading-based structure extraction).

Python strings are modelled as Lean `String` / `List Char`; machine-level
concerns do not arise.  Regular expressions from the source are unfolded by
hand into deterministic character scanners: every regex used by the source is
backtracking-free on its inputs (each quantified class is disjoint from the
character that follows it), so the scanners below compute exactly the regex
semantics.  ASCII is assumed for case folding and character classes (the
tools are run on ASCII WordprocessingML identifiers and English text);
Python's Unicode-aware `\w`, `\d`, `\s` and `str.lower` agree with the
ASCII models on all inputs appearing in the development.
-/

namespace Skills

/-- Python whitespace (`str.strip`, regex `\s`), ASCII fragment:
space, tab, newline, carriage return, vertical tab, form feed. -/
def pyIsSpace (c : Char) : Bool :=
  c = ' ' || c = '\t' || c = '\n' || c = '\r' || c = '\x0b' || c = '\x0c'

/-- Python `str.strip()` on a character list. -/
def pyStripL (cs : List Char) : List Char :=
  ((cs.dropWhile pyIsSpace).reverse.dropWhile pyIsSpace).reverse

/-- Python `str.strip()`. -/
def pyStrip (s : String) : String := ⟨pyStripL s.toList⟩

/-- Python `str.lower()` on one character (ASCII fragment). -/
def pyLowerChar (c : Char) : Char :=
  if 65 ≤ c.toNat ∧ c.toNat ≤ 90 then Char.ofNat (c.toNat + 32) else c

/-- Python `str.lower()` (ASCII fragment). -/
def pyLower (s : String) : String := ⟨s.toList.map pyLowerChar⟩

/-- ASCII decimal digit (regex `\d`). -/
def pyIsDigit (c : Char) : Bool := '0' ≤ c ∧ c ≤ '9'

/-- ASCII letter or digit. -/
def pyIsAlnum (c : Char) : Bool :=
  ('a' ≤ c ∧ c ≤ 'z') || ('A' ≤ c ∧ c ≤ 'Z') || pyIsDigit c

/-- Regex `\w` (ASCII fragment): letter, digit or underscore. -/
def pyIsWord (c : Char) : Bool := pyIsAlnum c || c = '_'

end Skills

namespace GenerateCover
open Skills

/-! ## Embedding of `src/skills/docx/generate_cover.py` -/

/-- `html.escape(s, quote=True)`, per character.  Python applies five
sequential `str.replace` passes (`&`, `<`, `>`, `"`, `'`); since no
replacement string contains a character that a later pass rewrites, the
composite equals this single character-wise map. -/
def escapeChar (c : Char) : List Char :=
  if c = '&' then ['&', 'a', 'm', 'p', ';']
  else if c = '<' then ['&', 'l', 't', ';']
  else if c = '>' then ['&', 'g', 't', ';']
  else if c = '"' then ['&', 'q', 'u', 'o', 't', ';']
  else if c = '\'' then ['&', '#', 'x', '2', '7', ';']
  else [c]

/-- `html.escape` on character lists. -/
def htmlEscapeL (cs : List Char) : List Char := cs.flatMap escapeChar

/-- `html.escape` (quote=True), as called by `_scoped_replace`. -/
def htmlEscape (s : String) : String := ⟨htmlEscapeL s.toList⟩

/-- The characters of the literal `<w:t` opening the regex group
`(<w:t[^>]*>)` of `_scoped_replace`. -/
def wtOpen : List Char := ['<', 'w', ':', 't']

/-- The characters of the literal closing tag `</w:t>` of the regex group
`(</w:t>)` of `_scoped_replace`. -/
def wtClose : List Char := ['<', '/', 'w', ':', 't', '>']

/-- Split a character list at its first `'>'`:
`splitFirstGt cs = some (a, b)` iff `cs = a ++ '>' :: b` with `'>' ∉ a`.
This is the (deterministic) action of the greedy regex fragment `[^>]*>`. -/
def splitFirstGt : List Char → Option (List Char × List Char)
  | [] => none
  | c :: rest =>
    if c = '>' then some ([], rest)
    else (splitFirstGt rest).map (fun p => (c :: p.1, p.2))

/-- Try to match the pattern `(<w:t[^>]*>)PH(</w:t>)` at the head of `s`.
On success returns the text of group 1 (`<w:t…>`) and the remainder of `s`
after the whole match.  The regex is deterministic here: `[^>]*` cannot
consume `'>'`, so the group ends at the first `'>'` and no backtracking
alternative exists. -/
def tryMatch (ph : List Char) (s : List Char) : Option (List Char × List Char) :=
  if s.take 4 = wtOpen then
    match splitFirstGt (s.drop 4) with
    | some (alpha, afterGt) =>
      if afterGt.take ph.length = ph ∧ (afterGt.drop ph.length).take 6 = wtClose then
        some (wtOpen ++ alpha ++ ['>'], (afterGt.drop ph.length).drop 6)
      else none
    | none => none
  else none

theorem splitFirstGt_length {cs a b : List Char} (h : splitFirstGt cs = some (a, b)) :
    cs.length = a.length + 1 + b.length := by
  induction cs generalizing a b with
  | nil => simp [splitFirstGt] at h
  | cons c rest ih =>
    by_cases hc : c = '>'
    · simp [splitFirstGt, hc] at h
      obtain ⟨rfl, rfl⟩ := h
      simp [Nat.add_comm]
    · simp [splitFirstGt, hc] at h
      obtain ⟨p, hp, hpa⟩ := h
      obtain ⟨rfl, rfl⟩ := hpa
      have := ih hp
      simp [this]; omega

theorem tryMatch_length {ph s g rest : List Char} (h : tryMatch ph s = some (g, rest)) :
    rest.length < s.length := by
  unfold tryMatch at h
  split at h
  case isTrue h4 =>
    cases hsp : splitFirstGt (s.drop 4) with
    | none => rw [hsp] at h; exact absurd h (by simp)
    | some p =>
      obtain ⟨alpha, afterGt⟩ := p
      rw [hsp] at h
      dsimp only at h
      split at h
      next =>
        simp only [Option.some.injEq, Prod.mk.injEq] at h
        obtain ⟨-, hrest⟩ := h
        have hr : rest.length ≤ afterGt.length := by
          rw [← hrest]; simp
        have hlen := splitFirstGt_length hsp
        have h4l : 4 ≤ s.length := by
          have := congrArg List.length h4
          simp [wtOpen] at this
          omega
        simp only [List.length_drop] at hlen
        omega
      next => exact absurd h (by simp)
  case isFalse => exact absurd h (by simp)

/-- The scanning pass shared by `pattern.finditer` and `pattern.sub` in
`_scoped_replace`: scan left to right; at each position try the (deterministic)
pattern; on a match emit group 1, the escaped value and `</w:t>` and resume
after the match (non-overlapping); otherwise emit the character and move on.
Returns the rewritten text and the number of matches. -/
def scanRep (ph esc : List Char) : List Char → List Char × Nat
  | [] => ([], 0)
  | c :: rest =>
    match h : tryMatch ph (c :: rest) with
    | some gr =>
      let r := scanRep ph esc gr.2
      (gr.1 ++ esc ++ wtClose ++ r.1, r.2 + 1)
    | none =>
      let r := scanRep ph esc rest
      (c :: r.1, r.2)
  termination_by s => s.length
  decreasing_by
  · exact tryMatch_length (by rw [h])
  · simp

/-- `_scoped_replace(xml_text, placeholder, replacement)`: raises
(`Except.error`) when the pattern has no matches, otherwise returns the
substituted text and the match count.  The error message is a faithful
rendering of `f"Placeholder '{placeholder}' not found in any <w:t> node"`
(quotes elided). -/
def scopedReplace (xmlText placeholder replacement : String) :
    Except String (String × Nat) :=
  let r := scanRep placeholder.toList (htmlEscape replacement).toList xmlText.toList
  if r.2 = 0 then
    .error ("Placeholder " ++ placeholder ++ " not found in any <w:t> node")
  else
    .ok (⟨r.1⟩, r.2)

/-- The `PLACEHOLDERS` table of `generate_cover.py`, in dict insertion order. -/
def PLACEHOLDERS : List (String × String) :=
  [("case_number", "No. 6461"),
   ("filing_name", "APPELLANTS OPENING BRIEF"),
   ("judge", "Hon. Stacy Beckerman")]

/-- Characters allowed in a tag name by the well-formedness model. -/
def isNameChar (c : Char) : Bool :=
  c.isAlphanum || c = ':' || c = '_' || c = '-' || c = '.'

/-- Scan the interior of a tag up to its terminating `'>'`, skipping over
double-quoted attribute values (so a `'>'` inside quotes does not end the
tag).  Returns the tag body and the rest of the input.  Fuelled; the caller
passes the input length, which suffices since every step consumes a
character. -/
def splitTagEnd : Nat → Bool → List Char → Option (List Char × List Char)
  | _, _, [] => none
  | 0, _, _ => none
  | fuel + 1, inQ, c :: rest =>
    if inQ then
      (splitTagEnd fuel (c ≠ '"') rest).map (fun p => (c :: p.1, p.2))
    else if c = '"' then
      (splitTagEnd fuel true rest).map (fun p => (c :: p.1, p.2))
    else if c = '>' then some ([], rest)
    else
      (splitTagEnd fuel false rest).map (fun p => (c :: p.1, p.2))

/-- One pass of the well-formedness model of `defusedxml ElementTree.fromstring`
(`_validate_xml`): tags must balance with matching names, there must be
exactly one top-level element, non-whitespace text may appear only inside the
root element, and processing instructions / declarations (`<?…>`, `<!…>`) are
skipped.  This is a simplified model of the expat parser: attribute syntax is
not checked beyond quote-aware tag-end detection, and entity references are
not checked, and namespace-prefix binding is not modelled (the expat parser
rejects a document that uses an undeclared prefix with an unbound-prefix
error).  Every concrete document this development evaluates the model on
declares the prefixes it uses, so on those documents the model and expat
agree. -/
def xmlGo : Nat → List Char → List (List Char) → Bool → Bool
  | _, [], stack, rootSeen => stack.isEmpty && rootSeen
  | 0, _ :: _, _, _ => false
  | fuel + 1, '<' :: rest, stack, rootSeen =>
    match rest with
    | '/' :: r2 =>
      let nm := r2.takeWhile isNameChar
      let r3 := (r2.dropWhile isNameChar).dropWhile pyIsSpace
      match r3 with
      | '>' :: r4 =>
        match stack with
        | top :: stk =>
          if nm = top then xmlGo fuel r4 stk (rootSeen || stk.isEmpty) else false
        | [] => false
      | _ => false
    | '?' :: r2 =>
      match splitTagEnd r2.length false r2 with
      | some (_, r3) => xmlGo fuel r3 stack rootSeen
      | none => false
    | '!' :: r2 =>
      match splitTagEnd r2.length false r2 with
      | some (_, r3) => xmlGo fuel r3 stack rootSeen
      | none => false
    | _ =>
      let nm := rest.takeWhile isNameChar
      if nm = [] then false
      else if stack.isEmpty && rootSeen then false
      else
        let r2 := rest.dropWhile isNameChar
        match splitTagEnd r2.length false r2 with
        | some (body, r3) =>
          if body.getLast? = some '/' then
            xmlGo fuel r3 stack (rootSeen || stack.isEmpty)
          else
            xmlGo fuel r3 (nm :: stack) rootSeen
        | none => false
  | fuel + 1, c :: rest, stack, rootSeen =>
    if stack.isEmpty && !pyIsSpace c then false
    else xmlGo fuel rest stack rootSeen

/-- `_validate_xml` as a boolean: `true` when the model parser accepts. -/
def validateXml (xmlText : String) : Bool :=
  xmlGo xmlText.toList.length xmlText.toList [] false

/-- The loop body of `apply_replacements`: for each `(key, placeholder)` in
`PLACEHOLDERS` order, require a replacement value, substitute, and re-validate
the XML; the accumulated per-key counts are appended in order. -/
def applyLoop (values : String → Option String) :
    String × List (String × Nat) → List (String × String) →
    Except String (String × List (String × Nat))
  | acc, [] => .ok acc
  | acc, (key, ph) :: rest =>
    match values key with
    | none => .error ("Missing replacement value for " ++ key)
    | some repl =>
      match scopedReplace acc.1 ph repl with
      | .error e => .error e
      | .ok (updated, count) =>
        if validateXml updated then
          applyLoop values (updated, acc.2 ++ [(key, count)]) rest
        else
          .error ("XML became invalid after replacing " ++ ph)

/-- `apply_replacements(xml_text, values)`: returns the transformed XML and
per-key match counts, or the first error encountered. -/
def applyReplacements (xmlText : String) (values : String → Option String) :
    Except String (String × List (String × Nat)) :=
  applyLoop values (xmlText, []) PLACEHOLDERS

/-- `write_docx(template_path, output_path, updated_xml)` on an archive
modelled as a list of named entries (entry data as strings of bytes): fails
when the output path equals the template path (`Path.resolve` modelled as
path identity), otherwise copies every entry, replacing the data of
`word/document.xml` with the updated XML. -/
def writeDocx (templatePath outputPath : String)
    (entries : List (String × String)) (updatedXml : String) :
    Except String (List (String × String)) :=
  if outputPath = templatePath then
    .error "Output path must differ from template to preserve the source file"
  else
    .ok (entries.map (fun e =>
      if e.1 = "word/document.xml" then (e.1, updatedXml) else e))

/-- The transformation core of `main` in `generate_cover.py` (after the
template archive has been read): apply the replacements; on `--dry-run`
write nothing (`.ok none`); otherwise write the output archive.  Any error
aborts before any archive is produced. -/
def runCover (xmlText : String) (values : String → Option String)
    (dryRun : Bool) (templatePath outputPath : String)
    (entries : List (String × String)) :
    Except String (Option (List (String × String))) :=
  match applyReplacements xmlText values with
  | .error e => .error e
  | .ok (updated, _) =>
    if dryRun then .ok none
    else
      match writeDocx templatePath outputPath entries updated with
      | .error e => .error e
      | .ok out => .ok (some out)

/-! ### Segment view of the `_scoped_replace` pattern

Splitting the document at every `'>'` yields segments `a₀ > a₁ > … > aₙ`.
For a placeholder free of `'>'`, a match of `(<w:t[^>]*>)PH(</w:t>)` is
exactly: a segment `aⱼ` having `<w:t` as an infix (the opening tag runs from
that occurrence to the `'>'` ending `aⱼ`), followed by a segment
`aⱼ₊₁ = PH ++ "</w:t"` that is itself followed by a `'>'`.  Substitution
rewrites `aⱼ₊₁` to `esc ++ "</w:t"` and leaves every other segment intact.
The equivalence with the character-level scan is proved below. -/

/-- Split at every `'>'` (like Python `str.split(">")`); never empty. -/
def splitGt : List Char → List (List Char)
  | [] => [[]]
  | c :: rest =>
    if c = '>' then [] :: splitGt rest
    else
      match splitGt rest with
      | a :: as_ => (c :: a) :: as_
      | [] => [[c]]

/-- Inverse of `splitGt`: interleave `'>'` between segments. -/
def joinGt : List (List Char) → List Char
  | [] => []
  | [a] => a
  | a :: b :: rest => a ++ '>' :: joinGt (b :: rest)

/-- The closing tag without its final `'>'`: `"</w:t"`. -/
def wtCloseSeg : List Char := ['<', '/', 'w', ':', 't']

/-- Does `<w:t` occur (as four consecutive characters) inside the segment? -/
def hasWtOpen : List Char → Bool
  | [] => false
  | c :: rest => ((c :: rest).take 4 = wtOpen : Bool) || hasWtOpen rest

/-- Segment-level rendering of the `_scoped_replace` scan: walk adjacent
segment pairs; a pair `(a, b)` with a further segment following, `<w:t`
inside `a`, and `b = ph ++ "</w:t"` is a match, whose substitution replaces
`b` by `esc ++ "</w:t"`; scanning resumes two segments later
(non-overlapping).  Returns the new segments and the match count. -/
def segScan (ph esc : List Char) : List (List Char) → List (List Char) × Nat
  | a :: b :: rest =>
    if rest ≠ [] ∧ hasWtOpen a ∧ b = ph ++ wtCloseSeg then
      let r := segScan ph esc rest
      (a :: (esc ++ wtCloseSeg) :: r.1, r.2 + 1)
    else
      let r := segScan ph esc (b :: rest)
      (a :: r.1, r.2)
  | fs => (fs, 0)
  termination_by fs => fs.length
  decreasing_by all_goals (simp; try omega)

/-- Match count of the segment view alone (independent of the replacement
text); this is the amended-specification count of occurrences: the
placeholder standing as the entire text between a `<w:t…>` opening tag
containing no `'>'` and an immediately following `</w:t>` closing tag. -/
def wtOccCount (ph : List Char) : List (List Char) → Nat
  | a :: b :: rest =>
    if rest ≠ [] ∧ hasWtOpen a ∧ b = ph ++ wtCloseSeg then
      wtOccCount ph rest + 1
    else
      wtOccCount ph (b :: rest)
  | _ => 0
  termination_by fs => fs.length
  decreasing_by all_goals (simp; try omega)

/-! ### Quote-aware reading of "scoped strictly inside a `<w:t>` node"

The claim-side notion used to test C3: an occurrence of the placeholder as
the entire text content of an actual `w:t` element, where the opening tag is
`<w:t` followed either directly by `'>'` or by whitespace and attributes
whose double-quoted values may themselves contain `'>'`. -/

/-- After `"<w:t"`, recognise the rest of a genuine opening tag: either an
immediate `'>'`, or whitespace followed by attribute text scanned
quote-aware up to the closing `'>'`.  Returns the remainder after `'>'`. -/
def wtTagRest (cs : List Char) : Option (List Char) :=
  match cs with
  | '>' :: rest => some rest
  | c :: rest =>
    if pyIsSpace c then
      match splitTagEnd rest.length false rest with
      | some (_, r) => some r
      | none => none
    else none
  | [] => none

/-- Count, scanning left to right without overlap, the occurrences of `ph`
as the entire text of a `w:t` element in the quote-aware sense. -/
def specWtOccurrencesAux (ph : List Char) : Nat → List Char → Nat
  | _, [] => 0
  | 0, _ => 0
  | fuel + 1, c :: rest =>
    if (c :: rest).take 4 = wtOpen then
      match wtTagRest ((c :: rest).drop 4) with
      | some afterTag =>
        if afterTag.take ph.length = ph ∧
            (afterTag.drop ph.length).take 6 = wtClose then
          specWtOccurrencesAux ph fuel ((afterTag.drop ph.length).drop 6) + 1
        else specWtOccurrencesAux ph fuel rest
      | none => specWtOccurrencesAux ph fuel rest
    else specWtOccurrencesAux ph fuel rest

/-- Number of occurrences of the placeholder scoped strictly inside a
`<w:t>` text-run node (exact full-content occurrences, quote-aware opening
tag) — the claim-side count for C3. -/
def specWtOccurrences (ph xmlText : String) : Nat :=
  specWtOccurrencesAux ph.toList xmlText.toList.length xmlText.toList

end GenerateCover

namespace HeadingToAkn
open Skills

/-! ## Embedding of `src/skills/docx/heading_to_akn.py` -/

/-- The `HEADING_STYLE_LEVELS` table, in source order. -/
def HEADING_STYLE_LEVELS : List (String × Nat) :=
  [("heading1", 1), ("h1", 1),
   ("heading2", 2), ("h2", 2),
   ("heading3", 3), ("h3", 3),
   ("heading4", 4), ("heading4a", 4),
   ("h4", 4), ("h4a", 4)]

/-- Case-insensitive literal prefix (regex `(?i)` on a literal): strips the
prefix `p` (given lowercased) from `cs`, comparing case-folded. -/
def stripPrefixCI : List Char → List Char → Option (List Char)
  | [], cs => some cs
  | _ :: _, [] => none
  | p :: ps, c :: cs =>
    if pyLowerChar c = pyLowerChar p then stripPrefixCI ps cs else none

/-- Regex `\s+` followed by maximal whitespace: requires at least one
whitespace character, then skips the run (deterministic because each use in
the source is followed by a non-whitespace literal or class). -/
def skipSpaces1 : List Char → Option (List Char)
  | c :: rest => if pyIsSpace c then some (rest.dropWhile pyIsSpace) else none
  | [] => none

/-- Python's `$`: end of string, or just before a trailing newline. -/
def reEnd : List Char → Bool
  | [] => true
  | ['\n'] => true
  | _ => false

/-- The common suffix `([1-4])([aA]?)$` of both fallback heading regexes. -/
def parseLevelSuffix : List Char → Option Nat
  | [] => none
  | d :: rest =>
    if '1' ≤ d ∧ d ≤ '4' then
      match rest with
      | 'a' :: rest2 => if reEnd rest2 then some (d.toNat - '0'.toNat) else none
      | 'A' :: rest2 => if reEnd rest2 then some (d.toNat - '0'.toNat) else none
      | r => if reEnd r then some (d.toNat - '0'.toNat) else none
    else none

/-- The regex fallback of `_heading_level`: try
`(?i)^heading\s*([1-4])([aA]?)$` first, then `(?i)^h([1-4])([aA]?)$`. -/
def headingRegexLevel (cs : List Char) : Option Nat :=
  match (match stripPrefixCI "heading".toList cs with
         | some rest => parseLevelSuffix (rest.dropWhile pyIsSpace)
         | none => none) with
  | some lvl => some lvl
  | none =>
    match stripPrefixCI "h".toList cs with
    | some rest => parseLevelSuffix rest
    | none => none

/-- `_heading_level(style)`: `None` and the empty string are falsy and yield
no level; otherwise exact lookup of the lowercased style in
`HEADING_STYLE_LEVELS`, then the regex fallback with `min(level, 4)`. -/
def headingLevel : Option String → Option Nat
  | none => none
  | some style =>
    if style = "" then none
    else
      match HEADING_STYLE_LEVELS.lookup (pyLower style) with
      | some l => some l
      | none =>
        match headingRegexLevel style.toList with
        | some l => some (min l 4)
        | none => none

/-- `CASE_NO_PATTERN`, `(?i)^case\s+no\.?\s+[\w-]+$`, applied with
`re.match` to already-stripped text (so `$` is plain end of input).  The
optional dot is deterministic: if a dot follows `no` it must be consumed,
since the alternative immediately requires whitespace at the dot. -/
def caseNoMatch (cs : List Char) : Bool :=
  (do
    let r1 ← stripPrefixCI "case".toList cs
    let r2 ← skipSpaces1 r1
    let r3 ← stripPrefixCI "no".toList r2
    let r4 := match r3 with
      | '.' :: t => t
      | t => t
    let r5 ← skipSpaces1 r4
    match r5 with
    | [] => none
    | l => if l.all (fun c => pyIsWord c || c = '-') then some () else none
  ).isSome

/-- `PAGE_NUMBER_PATTERN`, `^\d+(\s+of\s+\d+)?$` (IGNORECASE), applied to
already-stripped text.  `\d+` is deterministic (maximal digit run, since
both continuations start with a non-digit requirement or end). -/
def pageNumMatch (cs : List Char) : Bool :=
  if cs.takeWhile pyIsDigit = [] then false
  else
    match cs.dropWhile pyIsDigit with
    | [] => true
    | r =>
      (do
        let r1 ← skipSpaces1 r
        let r2 ← stripPrefixCI "of".toList r1
        let r3 ← skipSpaces1 r2
        if r3.takeWhile pyIsDigit ≠ [] ∧ r3.dropWhile pyIsDigit = [] then some ()
        else none
      ).isSome

/-- `_should_skip_paragraph(text)`. -/
def shouldSkipParagraph (text : String) : Bool :=
  pyStrip text = "" || caseNoMatch (pyStrip text).toList
    || pageNumMatch (pyStrip text).toList

/-- `re.sub(r"[^A-Za-z0-9]+", "-", ·)`: each maximal run of non-ASCII-alphanumeric
characters becomes a single hyphen. -/
def collapseNonAlnum : List Char → List Char
  | [] => []
  | c :: rest =>
    if pyIsAlnum c then c :: collapseNonAlnum rest
    else '-' :: collapseNonAlnum (rest.dropWhile (fun d => !pyIsAlnum d))
  termination_by cs => cs.length
  decreasing_by
  · simp
  · have h : (rest.dropWhile (fun d => !pyIsAlnum d)).length ≤ rest.length :=
      (List.dropWhile_sublist _).length_le
    simp
    omega

/-- Python `str.strip("-")`. -/
def stripDashes (cs : List Char) : List Char :=
  ((cs.dropWhile (· = '-')).reverse.dropWhile (· = '-')).reverse

/-- `_slugify(text)`. -/
def slugify (text : String) : String :=
  let cleaned := stripDashes (collapseNonAlnum (pyLower (pyStrip text)).toList)
  if cleaned = [] then "section" else ⟨cleaned⟩

/-- The `Section` dataclass: `title`, `level`, ordered `content` strings,
ordered `children`. -/
structure Section where
  title : String
  level : Nat
  content : List String
  children : List Section
deriving Repr

/-- The synthetic level-0 root created at the start of `_build_sections`. -/
def initialRoot : Section := ⟨"root", 0, [], []⟩

/-!
`_build_sections` keeps a stack of open `Section` objects and mutates them
in place: a pushed section is appended to its parent's `children` at push
time and keeps receiving `content`/`children` through the alias on the
stack.  The functional rendering below carries the still-open sections on
the stack with the data accumulated so far and attaches each section to its
parent when it is popped; since `content` and `children` are append-only and
the tree is only read after the full pass, the resulting tree is identical.
-/

/-- Pop the top open section and attach it to its parent (its data is final
at pop time). -/
def popAttach (parent child : Section) : Section :=
  { parent with children := parent.children ++ [child] }

/-- `while stack and stack[-1].level >= level: stack.pop()`.  The guard
`stack` never fails in the source because the bottom of the stack is the
level-0 root and every recognized heading level is positive; accordingly the
model stops at a single remaining frame. -/
def popWhile (lvl : Nat) : List Section → List Section
  | f :: p :: rest =>
    if lvl ≤ f.level then popWhile lvl (popAttach p f :: rest)
    else f :: p :: rest
  | fs => fs
  termination_by fs => fs.length
  decreasing_by simp

/-- `text or f"Heading{level}"`: the empty string is falsy. -/
def sectionTitle (text : String) (lvl : Nat) : String :=
  if text = "" then "Heading" ++ toString lvl else text

/-- The heading branch of the `_build_sections` loop: close sections at the
same or deeper level, create the new section, push it. -/
def headingStep (frames : List Section) (text : String) (lvl : Nat) :
    List Section :=
  ⟨sectionTitle text lvl, lvl, [], []⟩ :: popWhile lvl frames

/-- The non-heading branch: skip boilerplate, otherwise append the text to
the innermost open section's content. -/
def contentStep (frames : List Section) (text : String) : List Section :=
  if shouldSkipParagraph text then frames
  else
    match frames with
    | f :: rest => { f with content := f.content ++ [text] } :: rest
    | [] => []

/-- One iteration of the `_build_sections` loop on `(text, style)`.
`if level:` is Python truthiness: `None` and `0` both take the non-heading
branch. -/
def buildStep (frames : List Section) (p : String × Option String) :
    List Section :=
  match headingLevel p.2 with
  | some lvl => if 0 < lvl then headingStep frames p.1 lvl else contentStep frames p.1
  | none => contentStep frames p.1

/-- Close every still-open section at the end of the pass, returning the
root (which the source reads through the aliases already in place). -/
def closeAll : List Section → Section
  | [] => initialRoot
  | [f] => f
  | f :: p :: rest => closeAll (popAttach p f :: rest)
  termination_by fs => fs.length
  decreasing_by simp

/-- `_build_sections(paragraphs)`. -/
def buildSections (paragraphs : List (String × Option String)) : Section :=
  closeAll (List.foldl buildStep [initialRoot] paragraphs)

mutual
/-- Well-formedness of the produced tree: every child is strictly deeper
than its parent, recursively (the tree invariant claimed for the builder). -/
def wfSection : Section → Bool
  | ⟨_, lvl, _, children⟩ => wfChildren lvl children
def wfChildren (lvl : Nat) : List Section → Bool
  | [] => true
  | c :: rest => (decide (lvl < c.level) && wfSection c) && wfChildren lvl rest
end

mutual
/-- All content strings stored anywhere in a section tree. -/
def allContents : Section → List String
  | ⟨_, _, content, children⟩ => content ++ allContentsL children
def allContentsL : List Section → List String
  | [] => []
  | c :: rest => allContents c ++ allContentsL rest
end

mutual
/-- Erase all content lists, keeping titles, levels and child structure
(used to state shape-only facts about the builder). -/
def stripContents : Section → Section
  | ⟨title, lvl, _, children⟩ => ⟨title, lvl, [], stripContentsL children⟩
def stripContentsL : List Section → List Section
  | [] => []
  | c :: rest => stripContents c :: stripContentsL rest
end

/-- The heading paragraphs of a paragraph stream, as `(text, level)` in
order — exactly those that take the heading branch of the loop. -/
def headings (ps : List (String × Option String)) : List (String × Nat) :=
  ps.filterMap (fun p =>
    match headingLevel p.2 with
    | some lvl => if 0 < lvl then some (p.1, lvl) else none
    | none => none)

/-- The builder step restricted to headings (shape homomorphism target). -/
def shapeStep (frames : List Section) (p : String × Nat) : List Section :=
  ⟨sectionTitle p.1 p.2, p.2, [], []⟩ :: popWhile p.2 frames

/-- An emitted XML element (`xml.etree.ElementTree.Element`): tag, attribute
list in insertion order, optional text, children in insertion order. -/
structure XElem where
  tag : String
  attrs : List (String × String)
  text : Option String
  children : List XElem
deriving Repr

mutual
/-- `_section_to_xml(section)`: a `section` element with slug `id` and
numeric `level`, a `heading` child holding the title, one `p` child per
content string, then one child per child section. -/
def sectionToXml : Section → XElem
  | ⟨title, lvl, content, children⟩ =>
    ⟨"section", [("id", slugify title), ("level", toString lvl)], none,
      ⟨"heading", [], some title, []⟩ ::
        content.map (fun t => ⟨"p", [], some t, []⟩) ++ sectionListToXml children⟩
def sectionListToXml : List Section → List XElem
  | [] => []
  | s :: rest => sectionToXml s :: sectionListToXml rest
end

/-- `build_akn_tree(root)`: `akomaNtoso > judgment > body`, the body holding
the rendered children of the synthetic root (the root itself is not
emitted). -/
def buildAknTree (root : Section) : XElem :=
  ⟨"akomaNtoso", [], none,
    [⟨"judgment", [], none,
      [⟨"body", [], none, sectionListToXml root.children⟩]⟩]⟩

end HeadingToAkn

namespace HeadingToAkn
open Skills

/-! ## Stack invariant of `_build_sections` (C1) -/

theorem wfChildren_append (lvl : Nat) (xs ys : List Section) :
    wfChildren lvl (xs ++ ys) = (wfChildren lvl xs && wfChildren lvl ys) := by
  induction xs with
  | nil => simp [wfChildren]
  | cons c rest ih => simp [wfChildren, ih, Bool.and_assoc]

theorem level_popAttach (p f : Section) : (popAttach p f).level = p.level := rfl

theorem wfSection_popAttach {p f : Section} (hlt : p.level < f.level)
    (hp : wfSection p = true) (hf : wfSection f = true) :
    wfSection (popAttach p f) = true := by
  cases p with
  | mk t l c ch =>
    simp only [popAttach] at *
    simp only [wfSection] at hp ⊢
    simp [wfChildren_append, wfChildren, hp, hf]
    exact hlt

/-- Invariant of the construction stack: nonempty; the bottom frame has
level 0 (the synthetic root); levels strictly decrease from the top (head)
to the bottom, i.e. strictly increase from bottom to top; and every open
frame is well-formed with the children attached so far. -/
def stackOk (fs : List Section) : Prop :=
  fs ≠ [] ∧ (fs.map Section.level).getLast? = some 0 ∧
    List.Chain' (fun a b => b < a) (fs.map Section.level) ∧
    ∀ f ∈ fs, wfSection f = true

theorem stackOk_pop {f p : Section} {rest : List Section}
    (h : stackOk (f :: p :: rest)) : stackOk (popAttach p f :: rest) := by
  obtain ⟨-, hlast, hchain, hwf⟩ := h
  have hpf : p.level < f.level := (List.chain'_cons.mp hchain).1
  refine ⟨by simp, ?_, ?_, ?_⟩
  · simpa [List.getLast?_cons_cons] using hlast
  · have := (List.chain'_cons.mp hchain).2
    simpa [level_popAttach] using this
  · intro g hg
    rcases List.mem_cons.mp hg with hg | hg
    · exact hg ▸ wfSection_popAttach hpf (hwf p (by simp)) (hwf f (by simp))
    · exact hwf g (by simp [hg])

theorem popWhile_ok {lvl : Nat} (hl : 0 < lvl) :
    ∀ {fs : List Section}, stackOk fs →
      stackOk (popWhile lvl fs) ∧
        ∃ g gs, popWhile lvl fs = g :: gs ∧ g.level < lvl := by
  intro fs h
  induction fs using popWhile.induct lvl with
  | case1 f p rest hcond ih =>
    rw [popWhile, if_pos hcond]
    exact ih (stackOk_pop h)
  | case2 f p rest hcond =>
    rw [popWhile, if_neg hcond]
    exact ⟨h, f, p :: rest, rfl, by omega⟩
  | case3 fs hshape =>
    match fs, h, hshape with
    | [], h, _ => exact absurd rfl h.1
    | [f], h, _ =>
      have hf0 : f.level = 0 := by
        have := h.2.1
        simpa using this
      have hpw : popWhile lvl [f] = [f] := by rw [popWhile.eq_def]
      rw [hpw]
      exact ⟨h, f, [], rfl, by omega⟩
    | f :: p :: rest, _, hshape => exact absurd rfl (hshape f p rest)

theorem wfSection_withContent (f : Section) (c : List String) :
    wfSection { f with content := c } = wfSection f := by
  cases f; simp [wfSection]

theorem stackOk_contentStep {fs : List Section} (h : stackOk fs) (text : String) :
    stackOk (contentStep fs text) := by
  unfold contentStep
  split
  · exact h
  · match fs, h with
    | [], h => exact absurd rfl h.1
    | f :: rest, h =>
      obtain ⟨-, hlast, hchain, hwf⟩ := h
      refine ⟨by simp, by simpa using hlast, by simpa using hchain, ?_⟩
      intro g hg
      rcases List.mem_cons.mp hg with hg | hg
      · rw [hg, wfSection_withContent]
        exact hwf f (by simp)
      · exact hwf g (by simp [hg])

theorem stackOk_headingStep {fs : List Section} (h : stackOk fs)
    (text : String) {lvl : Nat} (hl : 0 < lvl) :
    stackOk (headingStep fs text lvl) := by
  obtain ⟨hok, g, gs, hpop, hglt⟩ := popWhile_ok hl h
  rw [hpop] at hok
  obtain ⟨-, hlast, hchain, hwf⟩ := hok
  unfold headingStep
  rw [hpop]
  refine ⟨by simp, ?_, ?_, ?_⟩
  · simpa [List.getLast?_cons_cons] using hlast
  · simp only [List.map_cons]
    exact List.chain'_cons.mpr ⟨hglt, by simpa using hchain⟩
  · intro f hf
    rcases List.mem_cons.mp hf with hf | hf
    · rw [hf]; simp [wfSection, wfChildren]
    · exact hwf f hf

theorem stackOk_buildStep {fs : List Section} (h : stackOk fs)
    (p : String × Option String) : stackOk (buildStep fs p) := by
  cases hlev : headingLevel p.2 with
  | none =>
    simp only [buildStep, hlev]
    exact stackOk_contentStep h p.1
  | some lvl =>
    simp only [buildStep, hlev]
    by_cases hpos : 0 < lvl
    · rw [if_pos hpos]; exact stackOk_headingStep h p.1 hpos
    · rw [if_neg hpos]; exact stackOk_contentStep h p.1

theorem stackOk_init : stackOk [initialRoot] := by
  refine ⟨by simp, by simp [initialRoot], by simp, ?_⟩
  intro f hf
  simp at hf
  rw [hf]
  simp [initialRoot, wfSection, wfChildren]

theorem stackOk_foldl (ps : List (String × Option String)) :
    ∀ {fs : List Section}, stackOk fs →
      stackOk (List.foldl buildStep fs ps) := by
  induction ps with
  | nil => intro fs h; simpa using h
  | cons p rest ih =>
    intro fs h
    rw [List.foldl_cons]
    exact ih (stackOk_buildStep h p)

theorem closeAll_ok : ∀ {fs : List Section}, stackOk fs →
    wfSection (closeAll fs) = true ∧ (closeAll fs).level = 0 := by
  intro fs h
  induction fs using closeAll.induct with
  | case1 => exact absurd rfl h.1
  | case2 f =>
    have hc : closeAll [f] = f := by rw [closeAll]
    rw [hc]
    refine ⟨h.2.2.2 f (by simp), ?_⟩
    have := h.2.1
    simpa using this
  | case3 f p rest ih =>
    have hc : closeAll (f :: p :: rest) = closeAll (popAttach p f :: rest) := by
      rw [closeAll]
    rw [hc]
    exact ih (stackOk_pop h)

end HeadingToAkn

namespace HeadingToAkn
open Skills

/-! ## Content invariant of `_build_sections` (C7) -/

theorem allContentsL_append (xs ys : List Section) :
    allContentsL (xs ++ ys) = allContentsL xs ++ allContentsL ys := by
  induction xs with
  | nil => simp [allContentsL]
  | cons c rest ih => simp [allContentsL, ih]

theorem allContents_popAttach (p f : Section) :
    allContents (popAttach p f) = allContents p ++ allContents f := by
  cases p
  simp [popAttach, allContents, allContentsL_append, allContentsL]

theorem allContents_withContent (f : Section) (c : List String) :
    allContents { f with content := c } = c ++ allContentsL f.children := by
  cases f; simp [allContents]

/-- Every content string stored in any open frame passed the skip check. -/
def contentsOk (fs : List Section) : Prop :=
  ∀ f ∈ fs, ∀ t ∈ allContents f, shouldSkipParagraph t = false

theorem contentsOk_pop {f p : Section} {rest : List Section}
    (h : contentsOk (f :: p :: rest)) : contentsOk (popAttach p f :: rest) := by
  intro g hg t ht
  rcases List.mem_cons.mp hg with rfl | hg
  · rw [allContents_popAttach] at ht
    rcases List.mem_append.mp ht with ht | ht
    · exact h p (by simp) t ht
    · exact h f (by simp) t ht
  · exact h g (by simp [hg]) t ht

theorem contentsOk_popWhile (lvl : Nat) :
    ∀ {fs : List Section}, contentsOk fs → contentsOk (popWhile lvl fs) := by
  intro fs h
  induction fs using popWhile.induct lvl with
  | case1 f p rest hcond ih =>
    rw [popWhile, if_pos hcond]
    exact ih (contentsOk_pop h)
  | case2 f p rest hcond =>
    rw [popWhile, if_neg hcond]
    exact h
  | case3 fs hshape =>
    match fs, h, hshape with
    | [], h, _ => simpa [popWhile] using h
    | [f], h, _ =>
      have hpw : popWhile lvl [f] = [f] := by rw [popWhile.eq_def]
      rw [hpw]; exact h
    | f :: p :: rest, _, hshape => exact absurd rfl (hshape f p rest)

theorem contentsOk_contentStep {fs : List Section} (h : contentsOk fs)
    (text : String) : contentsOk (contentStep fs text) := by
  unfold contentStep
  split
  · exact h
  next hskip =>
    match fs, h with
    | [], h => exact h
    | f :: rest, h =>
      intro g hg t ht
      rcases List.mem_cons.mp hg with rfl | hg
      · rw [allContents_withContent] at ht
        rcases List.mem_append.mp ht with ht | ht
        · rcases List.mem_append.mp ht with ht | ht
          · exact h f (by simp) t (by cases f; simpa [allContents] using Or.inl ht)
          · simp at ht
            rw [ht]
            simpa using hskip
        · exact h f (by simp) t (by cases f; simpa [allContents] using Or.inr ht)
      · exact h g (by simp [hg]) t ht

theorem contentsOk_buildStep {fs : List Section} (h : contentsOk fs)
    (p : String × Option String) : contentsOk (buildStep fs p) := by
  cases hlev : headingLevel p.2 with
  | none =>
    simp only [buildStep, hlev]
    exact contentsOk_contentStep h p.1
  | some lvl =>
    simp only [buildStep, hlev]
    by_cases hpos : 0 < lvl
    · rw [if_pos hpos]
      unfold headingStep
      intro g hg t ht
      rcases List.mem_cons.mp hg with rfl | hg
      · simp [allContents, allContentsL] at ht
      · exact contentsOk_popWhile lvl h g hg t ht
    · rw [if_neg hpos]
      exact contentsOk_contentStep h p.1

theorem contentsOk_foldl (ps : List (String × Option String)) :
    ∀ {fs : List Section}, contentsOk fs →
      contentsOk (List.foldl buildStep fs ps) := by
  induction ps with
  | nil => intro fs h; simpa using h
  | cons p rest ih =>
    intro fs h
    rw [List.foldl_cons]
    exact ih (contentsOk_buildStep h p)

theorem contentsOk_closeAll : ∀ {fs : List Section}, contentsOk fs →
    ∀ t ∈ allContents (closeAll fs), shouldSkipParagraph t = false := by
  intro fs h
  induction fs using closeAll.induct with
  | case1 =>
    intro t ht
    have hc : closeAll ([] : List Section) = initialRoot := by rw [closeAll]
    rw [hc] at ht
    simp [initialRoot, allContents, allContentsL] at ht
  | case2 f =>
    have hc : closeAll [f] = f := by rw [closeAll]
    rw [hc]
    exact h f (by simp)
  | case3 f p rest ih =>
    have hc : closeAll (f :: p :: rest) = closeAll (popAttach p f :: rest) := by
      rw [closeAll]
    rw [hc]
    exact ih (contentsOk_pop h)

end HeadingToAkn

namespace HeadingToAkn
open Skills

/-! ## Shape homomorphism of `_build_sections` (C2) -/

theorem level_stripContents (s : Section) :
    (stripContents s).level = s.level := by
  cases s; simp [stripContents]

theorem stripContentsL_append (xs ys : List Section) :
    stripContentsL (xs ++ ys) = stripContentsL xs ++ stripContentsL ys := by
  induction xs with
  | nil => simp [stripContentsL]
  | cons c rest ih => simp [stripContentsL, ih]

theorem stripContents_popAttach (p f : Section) :
    stripContents (popAttach p f) =
      popAttach (stripContents p) (stripContents f) := by
  cases p
  simp [popAttach, stripContents, stripContentsL_append, stripContentsL]

theorem popWhile_strip (lvl : Nat) :
    ∀ fs : List Section,
      (popWhile lvl fs).map stripContents =
        popWhile lvl (fs.map stripContents) := by
  intro fs
  induction fs using popWhile.induct lvl with
  | case1 f p rest hcond ih =>
    have hcond2 : lvl ≤ (stripContents f).level := by
      rwa [level_stripContents]
    have hR : popWhile lvl ((f :: p :: rest).map stripContents)
        = popWhile lvl
            (popAttach (stripContents p) (stripContents f) :: rest.map stripContents) := by
      rw [List.map_cons, List.map_cons, popWhile, if_pos hcond2]
    rw [popWhile, if_pos hcond, ih, hR, List.map_cons, stripContents_popAttach]
  | case2 f p rest hcond =>
    have hcond2 : ¬ lvl ≤ (stripContents f).level := by
      rwa [level_stripContents]
    rw [popWhile, if_neg hcond, List.map_cons, List.map_cons, popWhile,
      if_neg hcond2]
  | case3 fs hshape =>
    match fs, hshape with
    | [], _ => simp [popWhile]
    | [f], _ =>
      have h1 : popWhile lvl [f] = [f] := by rw [popWhile.eq_def]
      have h2 : popWhile lvl [stripContents f] = [stripContents f] := by
        rw [popWhile.eq_def]
      simp [h1, h2]
    | f :: p :: rest, hshape => exact absurd rfl (hshape f p rest)

theorem contentStep_strip (fs : List Section) (text : String) :
    (contentStep fs text).map stripContents = fs.map stripContents := by
  unfold contentStep
  split
  · rfl
  · match fs with
    | [] => rfl
    | f :: rest =>
      cases f
      simp [stripContents]

theorem headingStep_strip (fs : List Section) (text : String) (lvl : Nat) :
    (headingStep fs text lvl).map stripContents =
      shapeStep (fs.map stripContents) (text, lvl) := by
  unfold headingStep shapeStep
  rw [List.map_cons, popWhile_strip]
  rfl

theorem headings_cons (p : String × Option String)
    (ps : List (String × Option String)) :
    headings (p :: ps) =
      (match headingLevel p.2 with
       | some lvl => if 0 < lvl then (p.1, lvl) :: headings ps else headings ps
       | none => headings ps) := by
  cases hlev : headingLevel p.2 with
  | none => simp [headings, List.filterMap_cons, hlev]
  | some lvl =>
    by_cases hpos : 0 < lvl
    · simp [headings, List.filterMap_cons, hlev, hpos]
    · simp [headings, List.filterMap_cons, hlev, hpos]

theorem foldl_strip (ps : List (String × Option String)) :
    ∀ fs : List Section,
      (List.foldl buildStep fs ps).map stripContents =
        List.foldl shapeStep (fs.map stripContents) (headings ps) := by
  induction ps with
  | nil => intro fs; simp [headings]
  | cons p rest ih =>
    intro fs
    rw [List.foldl_cons, ih, headings_cons]
    cases hlev : headingLevel p.2 with
    | none =>
      have : buildStep fs p = contentStep fs p.1 := by
        simp [buildStep, hlev]
      rw [this, contentStep_strip]
    | some lvl =>
      by_cases hpos : 0 < lvl
      · have : buildStep fs p = headingStep fs p.1 lvl := by
          simp [buildStep, hlev, hpos]
        rw [this, headingStep_strip]
        simp [hpos]
      · have : buildStep fs p = contentStep fs p.1 := by
          simp [buildStep, hlev, hpos]
        rw [this, contentStep_strip]
        simp [hpos]

theorem closeAll_strip : ∀ fs : List Section,
    stripContents (closeAll fs) = closeAll (fs.map stripContents) := by
  intro fs
  induction fs using closeAll.induct with
  | case1 =>
    have h1 : closeAll ([] : List Section) = initialRoot := by rw [closeAll]
    simp [h1, initialRoot, stripContents, stripContentsL]
  | case2 f =>
    have h1 : closeAll [f] = f := by rw [closeAll]
    have h2 : closeAll [stripContents f] = stripContents f := by rw [closeAll]
    simp [h1, h2]
  | case3 f p rest ih =>
    have h1 : closeAll (f :: p :: rest) = closeAll (popAttach p f :: rest) := by
      rw [closeAll]
    have h2 : closeAll (stripContents f :: stripContents p :: rest.map stripContents)
        = closeAll (popAttach (stripContents p) (stripContents f) :: rest.map stripContents) := by
      rw [closeAll]
    rw [h1, ih, List.map_cons, stripContents_popAttach]
    rw [List.map_cons, List.map_cons, h2]

end HeadingToAkn

namespace HeadingToAkn
open Skills

/-! ## Classification bounds (C5) -/

theorem digit_level_bounds {d : Char} (h1 : '1' ≤ d) (h2 : d ≤ '4') :
    1 ≤ d.toNat - '0'.toNat ∧ d.toNat - '0'.toNat ≤ 4 := by
  simp only [Char.le_def] at h1 h2
  have g1 : ('1' : Char).val.toNat ≤ d.val.toNat := by exact_mod_cast h1
  have g2 : d.val.toNat ≤ ('4' : Char).val.toNat := by exact_mod_cast h2
  have e1 : ('1' : Char).val.toNat = 49 := rfl
  have e2 : ('4' : Char).val.toNat = 52 := rfl
  have e3 : ('0' : Char).val.toNat = 48 := rfl
  unfold Char.toNat
  omega

theorem parseLevelSuffix_bounds {cs : List Char} {l : Nat}
    (h : parseLevelSuffix cs = some l) : 1 ≤ l ∧ l ≤ 4 := by
  match cs with
  | [] => simp [parseLevelSuffix] at h
  | d :: rest =>
    rw [parseLevelSuffix.eq_def] at h
    dsimp only at h
    split at h
    case isTrue hd =>
      have hb := digit_level_bounds hd.1 hd.2
      have hb48 : 1 ≤ d.toNat - 48 ∧ d.toNat - 48 ≤ 4 := hb
      split at h <;> split at h <;>
        first
        | (rw [Option.some.injEq] at h; omega)
        | exact absurd h (by simp)
    case isFalse => simp at h

theorem headingRegexLevel_bounds {cs : List Char} {l : Nat}
    (h : headingRegexLevel cs = some l) : 1 ≤ l ∧ l ≤ 4 := by
  unfold headingRegexLevel at h
  split at h
  next lvl heq =>
    simp only [Option.some.injEq] at h
    subst h
    split at heq
    next => exact parseLevelSuffix_bounds heq
    next => simp at heq
  next =>
    split at h
    next => exact parseLevelSuffix_bounds h
    next => simp at h

theorem lookup_HEADING_bounds {k : String} {v : Nat}
    (h : HEADING_STYLE_LEVELS.lookup k = some v) : 1 ≤ v ∧ v ≤ 4 := by
  simp only [HEADING_STYLE_LEVELS, List.lookup] at h
  repeat' split at h
  all_goals simp_all only [Option.some.injEq, reduceCtorEq]
  all_goals omega

/-- Any level produced by `_heading_level` lies in 1..4. -/
theorem headingLevel_bounds {st : Option String} {l : Nat}
    (h : headingLevel st = some l) : 1 ≤ l ∧ l ≤ 4 := by
  match st with
  | none => simp [headingLevel] at h
  | some s =>
    rw [headingLevel.eq_def] at h
    dsimp only at h
    split at h
    next => simp at h
    next =>
      split at h
      next l0 hlook =>
        simp only [Option.some.injEq] at h
        exact h ▸ lookup_HEADING_bounds hlook
      next =>
        split at h
        next l1 hreg =>
          simp only [Option.some.injEq] at h
          have := headingRegexLevel_bounds hreg
          omega
        next => simp at h

end HeadingToAkn

namespace HeadingToAkn
open Skills

/-! ## Claim theorems for the heading extractor -/

/-- Claim C5: `_heading_level` maps a raw style label (or `None`) to a
heading level 1–4: exact lookup in `HEADING_STYLE_LEVELS` first, then the
case-insensitive regex fallback tolerating forms like `Heading2`, `H3`,
`H4a`, with the parsed level clamped to at most 4; absent or unrecognized
styles yield no level. -/
theorem claimC5_heading_level_classification :
    (headingLevel none = none ∧ headingLevel (some "") = none)
    ∧ (∀ s l, HEADING_STYLE_LEVELS.lookup (pyLower s) = some l →
        headingLevel (some s) = some l)
    ∧ (∀ st l, headingLevel st = some l → 1 ≤ l ∧ l ≤ 4)
    ∧ (headingLevel (some "Heading2") = some 2
        ∧ headingLevel (some "H3") = some 3
        ∧ headingLevel (some "H4a") = some 4)
    ∧ (∀ s, HEADING_STYLE_LEVELS.lookup (pyLower s) = none →
        headingRegexLevel s.toList = none → headingLevel (some s) = none) := by
  refine ⟨⟨rfl, by decide⟩, ?_, fun st l h => headingLevel_bounds h,
    ⟨by decide, by decide, by decide⟩, ?_⟩
  · intro s l hl
    have hs : ¬ s = "" := by
      intro he
      subst he
      rw [show pyLower "" = "" from rfl,
        show HEADING_STYLE_LEVELS.lookup "" = none from by decide] at hl
      exact Option.noConfusion hl
    rw [headingLevel.eq_def]
    dsimp only
    rw [if_neg hs, hl]
  · intro s hlk hrg
    by_cases hs : s = ""
    · subst hs; decide
    · rw [headingLevel.eq_def]
      dsimp only
      rw [if_neg hs, hlk, hrg]

theorem claimC5_witness :
    headingLevel (some "H2") = some 2 ∧ headingLevel (some "BodyText") = none := by
  constructor
  · exact claimC5_heading_level_classification.2.1 "H2" 2 (by decide)
  · exact claimC5_heading_level_classification.2.2.2.2 "BodyText"
      (by decide) (by decide)

/-- Claim C1: throughout the single forward pass of `_build_sections` the
construction stack is never empty (the synthetic level-0 root is never
popped, since every recognized heading level is at least 1) and stack
levels are strictly increasing from bottom to top (equivalently, strictly
decreasing from the head of the stack list, whose last element is the
level-0 root); consequently, in the returned tree every child section's
level is strictly greater than its parent's along every root-to-leaf path.
Quantifying over all `ps` covers every intermediate state of the pass,
since the state after processing any prefix is the fold over that prefix. -/
theorem claimC1_stack_invariant (ps : List (String × Option String)) :
    (List.foldl buildStep [initialRoot] ps ≠ []
      ∧ ((List.foldl buildStep [initialRoot] ps).map Section.level).getLast? = some 0
      ∧ List.Chain' (fun a b => b < a)
          ((List.foldl buildStep [initialRoot] ps).map Section.level))
    ∧ (∀ st l, headingLevel st = some l → 1 ≤ l)
    ∧ wfSection (buildSections ps) = true ∧ (buildSections ps).level = 0 := by
  have hOk := stackOk_foldl ps stackOk_init
  have hClose := closeAll_ok hOk
  exact ⟨⟨hOk.1, hOk.2.1, hOk.2.2.1⟩, fun st l h => (headingLevel_bounds h).1,
    hClose.1, hClose.2⟩

theorem claimC1_witness :
    wfSection (buildSections
      [("A", some "h1"), ("B", some "h3"), ("C", some "h2")]) = true :=
  (claimC1_stack_invariant
    [("A", some "h1"), ("B", some "h3"), ("C", some "h2")]).2.2.1

/-- Claim C7: for every non-heading paragraph in every heading context, a
paragraph whose stripped text is empty, matches the case-insensitive
Case-No banner exactly, or matches a bare page-number pattern exactly is
suppressed from content collection: the builder state is unchanged on such
a paragraph (a per-paragraph check independent of surrounding state), and
no suppressed text appears in any section's content list of the returned
tree. -/
theorem claimC7_boilerplate_suppression :
    (∀ (frames : List Section) (text : String) (style : Option String),
        (headingLevel style = none ∨ headingLevel style = some 0) →
        shouldSkipParagraph text = true →
        buildStep frames (text, style) = frames)
    ∧ (∀ (ps : List (String × Option String)) (t : String),
        t ∈ allContents (buildSections ps) → shouldSkipParagraph t = false)
    ∧ shouldSkipParagraph "" = true
    ∧ shouldSkipParagraph "Case No. 24-1234" = true
    ∧ shouldSkipParagraph "CASE NO. 24-1234" = true
    ∧ shouldSkipParagraph "12" = true
    ∧ shouldSkipParagraph "12 of 45" = true
    ∧ shouldSkipParagraph "12 OF 45" = true := by
  refine ⟨?_, ?_, by decide, by decide, by decide, by decide, by decide, by decide⟩
  · intro frames text style hlev hskip
    rcases hlev with hlev | hlev <;>
      simp [buildStep, hlev, contentStep, hskip]
  · intro ps t ht
    have hinit : contentsOk [initialRoot] := by
      intro f hf t' ht'
      simp only [List.mem_singleton] at hf
      subst hf
      simp [initialRoot, allContents, allContentsL] at ht'
    exact contentsOk_closeAll (contentsOk_foldl ps hinit) t ht

theorem claimC7_witness :
    buildStep [initialRoot] ("12 of 45", none) = [initialRoot] :=
  claimC7_boilerplate_suppression.1 [initialRoot] "12 of 45" none
    (Or.inl rfl) (by decide)

/-- Claim C10: the boilerplate skip heuristics apply only to non-heading
paragraphs: a heading-styled paragraph always creates and pushes a new
section, even when its text matches a skip pattern (it becomes the section
title), and a heading-styled paragraph with empty text becomes a section
titled with the synthetic placeholder `Heading<L>`. -/
theorem claimC10_headings_bypass_skip :
    (∀ (frames : List Section) (text : String) (style : Option String) (lvl : Nat),
        headingLevel style = some lvl → 0 < lvl → shouldSkipParagraph text = true →
        buildStep frames (text, style) =
          ⟨sectionTitle text lvl, lvl, [], []⟩ :: popWhile lvl frames)
    ∧ buildSections [("Case No. 24-1234", some "heading1")]
        = ⟨"root", 0, [], [⟨"Case No. 24-1234", 1, [], []⟩]⟩
    ∧ buildSections [("12", some "h2")]
        = ⟨"root", 0, [], [⟨"12", 2, [], []⟩]⟩
    ∧ buildSections [("", some "heading1")]
        = ⟨"root", 0, [], [⟨"Heading1", 1, [], []⟩]⟩ := by
  refine ⟨?_, ?_, ?_, ?_⟩
  · intro frames text style lvl hlev hpos hskip
    simp [buildStep, hlev, hpos, headingStep]
  all_goals
    simp [buildSections, buildStep, headingLevel, HEADING_STYLE_LEVELS, pyLower,
      pyLowerChar, List.lookup, headingRegexLevel, stripPrefixCI, parseLevelSuffix,
      reEnd, headingStep, popWhile, closeAll, popAttach, sectionTitle, initialRoot]
  all_goals decide

theorem claimC10_witness :
    buildStep [initialRoot] ("Case No. 24-1234", some "heading1") =
      [⟨"Case No. 24-1234", 1, [], []⟩, initialRoot] := by
  have h := claimC10_headings_bypass_skip.1 [initialRoot] "Case No. 24-1234"
    (some "heading1") 1 (by decide) (by decide) (by decide)
  rw [h]
  have hpw : popWhile 1 [initialRoot] = [initialRoot] := by rw [popWhile.eq_def]
  rw [hpw]
  simp [sectionTitle]

/-- Claim C2: for every paragraph sequence whose heading paragraphs occur,
in order, at levels 1, 2, 1, 3, `_build_sections` returns a root whose
children are exactly the two level-1 sections in document order; the first
level-1 section has exactly one child section (the level-2 heading) and the
second exactly one child section (the level-3 heading) — the second level-1
heading closes both the first level-1 section and the level-2 section
nested under it.  The tree is compared with contents erased, since the
shape is determined by the heading paragraphs alone. -/
theorem claimC2_shape_1213 (ps : List (String × Option String))
    (t1 t2 t3 t4 : String)
    (h : headings ps = [(t1, 1), (t2, 2), (t3, 1), (t4, 3)]) :
    stripContents (buildSections ps) =
      ⟨"root", 0, [],
        [⟨sectionTitle t1 1, 1, [], [⟨sectionTitle t2 2, 2, [], []⟩]⟩,
         ⟨sectionTitle t3 1, 1, [], [⟨sectionTitle t4 3, 3, [], []⟩]⟩]⟩ := by
  unfold buildSections
  rw [closeAll_strip, foldl_strip, h]
  have hroot : ([initialRoot] : List Section).map stripContents = [initialRoot] := by
    simp [initialRoot, stripContents, stripContentsL]
  rw [hroot]
  simp [shapeStep, popWhile, popAttach, closeAll, initialRoot]

theorem claimC2_witness :
    stripContents (buildSections
      [("A", some "h1"), ("intro", none), ("B", some "h2"),
       ("C", some "h1"), ("D", some "h3")]) =
      ⟨"root", 0, [],
        [⟨"A", 1, [], [⟨"B", 2, [], []⟩]⟩,
         ⟨"C", 1, [], [⟨"D", 3, [], []⟩]⟩]⟩ := by
  have h := claimC2_shape_1213
    [("A", some "h1"), ("intro", none), ("B", some "h2"),
     ("C", some "h1"), ("D", some "h3")] "A" "B" "C" "D" (by decide)
  rw [h]
  simp [sectionTitle]

end HeadingToAkn

namespace HeadingToAkn
open Skills

/-! ## Slug and emitter properties (C8) -/

theorem sectionListToXml_eq_map (l : List Section) :
    sectionListToXml l = l.map sectionToXml := by
  induction l with
  | nil => rfl
  | cons s rest ih => simp [sectionListToXml, ih]

/-- No two adjacent hyphens. -/
def noDoubleDash : List Char → Bool
  | a :: b :: rest => !(a = '-' && b = '-') && noDoubleDash (b :: rest)
  | _ => true

theorem noDoubleDash_cons {a : Char} {l : List Char}
    (h1 : ∀ b, l.head? = some b → ¬(a = '-' ∧ b = '-'))
    (h2 : noDoubleDash l = true) : noDoubleDash (a :: l) = true := by
  cases l with
  | nil => rfl
  | cons b t =>
    have hb := h1 b rfl
    simp only [noDoubleDash, Bool.and_eq_true, Bool.not_eq_true']
    refine ⟨?_, h2⟩
    simp only [Bool.and_eq_false_iff]
    by_cases ha : a = '-'
    · right
      simp only [decide_eq_false_iff_not]
      exact fun hbb => hb ⟨ha, hbb⟩
    · left
      simp only [decide_eq_false_iff_not]
      exact ha

theorem noDoubleDash_tail {a : Char} {l : List Char}
    (h : noDoubleDash (a :: l) = true) : noDoubleDash l = true := by
  cases l with
  | nil => rfl
  | cons b t =>
    simp only [noDoubleDash, Bool.and_eq_true] at h
    exact h.2

theorem noDoubleDash_of_suffix {l₁ l₂ : List Char} (h : l₁ <:+ l₂)
    (hd : noDoubleDash l₂ = true) : noDoubleDash l₁ = true := by
  obtain ⟨t, ht⟩ := h
  subst ht
  induction t with
  | nil => simpa using hd
  | cons x xs ih => exact ih (noDoubleDash_tail hd)

theorem noDoubleDash_of_prefix : ∀ {l₁ l₂ : List Char}, l₁ <+: l₂ →
    noDoubleDash l₂ = true → noDoubleDash l₁ = true := by
  intro l₁
  induction l₁ with
  | nil => intro l₂ _ _; rfl
  | cons a l ih =>
    intro l₂ hpre hd
    obtain ⟨t, ht⟩ := hpre
    subst ht
    cases l with
    | nil => rfl
    | cons b l' =>
      simp only [List.cons_append, noDoubleDash, Bool.and_eq_true] at hd ⊢
      exact ⟨hd.1, ih ⟨t, rfl⟩ hd.2⟩

theorem mem_collapse {c : Char} :
    ∀ {xs : List Char}, c ∈ collapseNonAlnum xs →
      c = '-' ∨ (pyIsAlnum c = true ∧ c ∈ xs) := by
  intro xs h
  induction xs using collapseNonAlnum.induct with
  | case1 => simp [collapseNonAlnum] at h
  | case2 x rest halnum ih =>
    rw [collapseNonAlnum, if_pos halnum] at h
    rcases List.mem_cons.mp h with rfl | h
    · exact Or.inr ⟨halnum, by simp⟩
    · rcases ih h with h | ⟨h1, h2⟩
      · exact Or.inl h
      · exact Or.inr ⟨h1, by simp [h2]⟩
  | case3 x rest halnum ih =>
    rw [collapseNonAlnum, if_neg halnum] at h
    rcases List.mem_cons.mp h with rfl | h
    · exact Or.inl rfl
    · rcases ih h with h | ⟨h1, h2⟩
      · exact Or.inl h
      · refine Or.inr ⟨h1, ?_⟩
        have := (List.dropWhile_suffix (fun d => !pyIsAlnum d)).subset h2
        simp [this]

theorem dropWhile_head_false {p : Char → Bool} {xs : List Char} {y : Char}
    {t : List Char} (h : xs.dropWhile p = y :: t) : p y = false := by
  induction xs with
  | nil => simp [List.dropWhile] at h
  | cons a rest ih =>
    rw [List.dropWhile_cons] at h
    split at h
    · exact ih h
    next hpa =>
      cases h
      simpa using hpa

theorem collapse_dropWhile_head_ne_dash {rest : List Char} {c : Char}
    (h : (collapseNonAlnum (rest.dropWhile (fun d => !pyIsAlnum d))).head? = some c) :
    ¬ c = '-' := by
  cases hdw : rest.dropWhile (fun d => !pyIsAlnum d) with
  | nil => rw [hdw] at h; simp [collapseNonAlnum] at h
  | cons y t =>
    have hy : pyIsAlnum y = true := by
      simpa using dropWhile_head_false hdw
    rw [hdw, collapseNonAlnum, if_pos hy] at h
    simp only [List.head?_cons, Option.some.injEq] at h
    subst h
    intro hc
    rw [hc] at hy
    exact absurd hy (by decide)

theorem noDoubleDash_collapse : ∀ (xs : List Char),
    noDoubleDash (collapseNonAlnum xs) = true := by
  intro xs
  induction xs using collapseNonAlnum.induct with
  | case1 => rw [collapseNonAlnum]; rfl
  | case2 x rest halnum ih =>
    rw [collapseNonAlnum, if_pos halnum]
    refine noDoubleDash_cons ?_ ih
    intro b _ hab
    rw [hab.1] at halnum
    exact absurd halnum (by decide)
  | case3 x rest halnum ih =>
    rw [collapseNonAlnum, if_neg halnum]
    refine noDoubleDash_cons ?_ ih
    intro b hb hab
    exact collapse_dropWhile_head_ne_dash hb hab.2

theorem pyLowerChar_not_upper (d : Char) :
    ¬ (65 ≤ (pyLowerChar d).toNat ∧ (pyLowerChar d).toNat ≤ 90) := by
  unfold pyLowerChar
  split
  next hin =>
    have : (Char.ofNat (d.toNat + 32)).toNat = d.toNat + 32 := by
      unfold Char.ofNat
      rw [dif_pos (by simp [Nat.isValidChar]; omega)]
      rfl
    rw [this]
    omega
  next hout =>
    omega

end HeadingToAkn

namespace HeadingToAkn
open Skills

theorem stripDashes_rdw (cs : List Char) :
    stripDashes cs = List.rdropWhile (· = '-') (cs.dropWhile (· = '-')) := rfl

theorem stripDashes_subset (cs : List Char) : stripDashes cs ⊆ cs := by
  intro c hc
  rw [stripDashes_rdw] at hc
  have h1 := (List.rdropWhile_prefix (· = '-') (cs.dropWhile (· = '-'))).subset hc
  exact (List.dropWhile_suffix (· = '-')).subset h1

theorem stripDashes_head (cs : List Char) :
    (stripDashes cs).head? ≠ some '-' := by
  intro hh
  cases hsd : stripDashes cs with
  | nil => rw [hsd] at hh; simp at hh
  | cons c0 cr =>
    rw [hsd] at hh
    simp only [List.head?_cons, Option.some.injEq] at hh
    subst hh
    rw [stripDashes_rdw] at hsd
    obtain ⟨t2, ht2⟩ := List.rdropWhile_prefix (· = '-') (cs.dropWhile (· = '-'))
    rw [hsd] at ht2
    have hshape : cs.dropWhile (· = '-') = '-' :: (cr ++ t2) := by
      rw [← ht2]; simp
    have := dropWhile_head_false hshape
    simp at this

theorem stripDashes_getLast (cs : List Char) :
    (stripDashes cs).getLast? ≠ some '-' := by
  intro hh
  have hne : stripDashes cs ≠ [] := by
    intro he; rw [he] at hh; simp at hh
  rw [stripDashes_rdw] at hh hne
  have hlast := List.rdropWhile_last_not (· = '-') (cs.dropWhile (· = '-')) hne
  rw [List.getLast?_eq_getLast _ hne] at hh
  simp only [Option.some.injEq] at hh
  rw [hh] at hlast
  simp at hlast

theorem stripDashes_noDoubleDash (cs : List Char)
    (h : noDoubleDash cs = true) : noDoubleDash (stripDashes cs) = true := by
  rw [stripDashes_rdw]
  exact noDoubleDash_of_prefix (List.rdropWhile_prefix _ _)
    (noDoubleDash_of_suffix (List.dropWhile_suffix _) h)

/-- All the slug-shape facts claimed for `_slugify`: nonempty result,
lowercased alphanumerics and hyphens only, no leading or trailing hyphen,
and no run of hyphens. -/
theorem slugify_props (t : String) :
    slugify t ≠ ""
    ∧ (∀ c ∈ (slugify t).toList,
        c = '-' ∨ (pyIsAlnum c = true ∧ ¬(65 ≤ c.toNat ∧ c.toNat ≤ 90)))
    ∧ (slugify t).toList.head? ≠ some '-'
    ∧ (slugify t).toList.getLast? ≠ some '-'
    ∧ noDoubleDash (slugify t).toList = true := by
  have hslug : slugify t =
      if stripDashes (collapseNonAlnum (pyLower (pyStrip t)).toList) = []
      then "section"
      else ⟨stripDashes (collapseNonAlnum (pyLower (pyStrip t)).toList)⟩ := rfl
  by_cases hnil : stripDashes (collapseNonAlnum (pyLower (pyStrip t)).toList) = []
  · rw [hslug, if_pos hnil]
    exact ⟨by decide, by decide, by decide, by decide, by decide⟩
  · rw [hslug, if_neg hnil]
    have htl : (String.mk (stripDashes (collapseNonAlnum (pyLower (pyStrip t)).toList))).toList
        = stripDashes (collapseNonAlnum (pyLower (pyStrip t)).toList) := rfl
    refine ⟨?_, ?_, ?_, ?_, ?_⟩
    · intro he
      exact hnil (by simpa [htl] using congrArg String.toList he)
    · intro c hc
      rw [htl] at hc
      have hc2 := stripDashes_subset _ hc
      rcases mem_collapse hc2 with h | ⟨h1, h2⟩
      · exact Or.inl h
      · refine Or.inr ⟨h1, ?_⟩
        have : c ∈ (pyStrip t).toList.map pyLowerChar := h2
        obtain ⟨d, -, hd⟩ := List.mem_map.mp this
        rw [← hd]
        exact pyLowerChar_not_upper d
    · rw [htl]; exact stripDashes_head _
    · rw [htl]; exact stripDashes_getLast _
    · rw [htl]; exact stripDashes_noDoubleDash _ (noDoubleDash_collapse _)

/-- Claim C8: `_section_to_xml` renders each `Section` as a `section`
element whose `id` attribute is the slugified title (lowercased,
non-alphanumeric runs collapsed to single hyphens, trimmed) and whose
`level` attribute is the numeric level, with one `heading` child holding
the title, one `p` child per content string in order, and one nested
`section` child per child section in order; `build_akn_tree` wraps the
synthetic root's children in `akomaNtoso > judgment > body`. -/
theorem claimC8_emitter (s : Section) (root : Section) :
    (sectionToXml s).tag = "section"
    ∧ (sectionToXml s).attrs = [("id", slugify s.title), ("level", toString s.level)]
    ∧ (sectionToXml s).text = none
    ∧ (sectionToXml s).children =
        ⟨"heading", [], some s.title, []⟩ ::
          s.content.map (fun t => ⟨"p", [], some t, []⟩)
          ++ s.children.map sectionToXml
    ∧ (slugify s.title ≠ ""
        ∧ (∀ c ∈ (slugify s.title).toList,
            c = '-' ∨ (pyIsAlnum c = true ∧ ¬(65 ≤ c.toNat ∧ c.toNat ≤ 90)))
        ∧ (slugify s.title).toList.head? ≠ some '-'
        ∧ (slugify s.title).toList.getLast? ≠ some '-'
        ∧ noDoubleDash (slugify s.title).toList = true)
    ∧ buildAknTree root =
        ⟨"akomaNtoso", [], none,
          [⟨"judgment", [], none,
            [⟨"body", [], none, root.children.map sectionToXml⟩]⟩]⟩ := by
  obtain ⟨title, lvl, content, children⟩ := s
  refine ⟨rfl, rfl, rfl, ?_, slugify_props title, ?_⟩
  · simp [sectionToXml, sectionListToXml_eq_map]
  · simp [buildAknTree, sectionListToXml_eq_map]

theorem claimC8_witness :
    (sectionToXml ⟨"My Title!", 2, ["p1"], []⟩).tag = "section"
    ∧ (sectionToXml ⟨"My Title!", 2, ["p1"], []⟩).attrs
        = [("id", slugify "My Title!"), ("level", "2")]
    ∧ slugify "My Title!" ≠ "" := by
  have h := claimC8_emitter ⟨"My Title!", 2, ["p1"], []⟩ initialRoot
  exact ⟨h.1, h.2.1, h.2.2.2.2.1.1⟩

end HeadingToAkn

namespace GenerateCover
open Skills

/-! ## Archive rewrite (C6) and error propagation (C4) -/

/-- Claim C6: for every archive entry other than `word/document.xml`,
`write_docx` copies the entry identically from the template archive into
the output archive; only the `word/document.xml` entry is replaced, with
the transformed XML content; and writing to the template path itself is
refused. -/
theorem claimC6_archive_copy (tpl outp : String)
    (entries : List (String × String)) (xml : String) :
    (∀ out, writeDocx tpl outp entries xml = .ok out →
        out.length = entries.length
        ∧ ∀ i : Nat, out[i]? = (entries[i]?).map (fun e =>
            if e.1 = "word/document.xml" then (e.1, xml) else e))
    ∧ (outp = tpl → writeDocx tpl outp entries xml =
        .error "Output path must differ from template to preserve the source file") := by
  constructor
  · intro out hok
    unfold writeDocx at hok
    split at hok
    · exact absurd hok (by simp)
    · simp only [Except.ok.injEq] at hok
      subst hok
      exact ⟨by simp, fun i => by simp⟩
  · intro he
    unfold writeDocx
    rw [if_pos he]

theorem claimC6_witness :
    (writeDocx "t.docx" "o.docx"
        [("word/document.xml", "old"), ("word/media", "img")] "new"
      = Except.ok [("word/document.xml", "new"), ("word/media", "img")])
    ∧ ([("word/document.xml", "new"), ("word/media", "img")] : List (String × String)).length
      = ([("word/document.xml", "old"), ("word/media", "img")] : List (String × String)).length := by
  have h := (claimC6_archive_copy "t.docx" "o.docx"
    [("word/document.xml", "old"), ("word/media", "img")] "new").1
    [("word/document.xml", "new"), ("word/media", "img")] (by rfl)
  exact ⟨by rfl, h.1⟩

/-- If `apply_replacements` succeeds, every configured key had a
replacement value. -/
theorem applyLoop_ok_values {values : String → Option String} :
    ∀ {l : List (String × String)} {acc res},
      applyLoop values acc l = .ok res →
      ∀ kp ∈ l, ∃ r, values kp.1 = some r := by
  intro l
  induction l with
  | nil => intro acc res h kp hkp; simp at hkp
  | cons p rest ih =>
    intro acc res h kp hkp
    obtain ⟨key, ph⟩ := p
    rw [applyLoop] at h
    cases hv : values key with
    | none => rw [hv] at h; exact absurd h (by simp)
    | some repl =>
      rw [hv] at h
      dsimp only at h
      cases hsr : scopedReplace acc.1 ph repl with
      | error e => rw [hsr] at h; exact absurd h (by simp)
      | ok ur =>
        obtain ⟨u, n⟩ := ur
        rw [hsr] at h
        dsimp only at h
        split at h
        · rcases List.mem_cons.mp hkp with rfl | hkp
          · exact ⟨repl, hv⟩
          · exact ih h kp hkp
        · exact absurd h (by simp)

/-- Claim C4: the cover-generator substitution has no partial success: a
missing replacement value, a placeholder with zero matches (an erroring
`_scoped_replace`), or XML made invalid by a substitution each abort
`apply_replacements` with an error; any such error propagates out of the
run with no archive produced; and an output archive exists only when the
whole substitution-and-validation chain succeeded. -/
theorem claimC4_no_partial_success (xml : String)
    (values : String → Option String) (dryRun : Bool)
    (tpl outp : String) (entries : List (String × String)) :
    ((values "case_number" = none ∨ values "filing_name" = none
        ∨ values "judge" = none) →
      ∃ e, applyReplacements xml values = .error e)
    ∧ (∀ r e, values "case_number" = some r →
        scopedReplace xml "No. 6461" r = .error e →
        applyReplacements xml values = .error e)
    ∧ (∀ r u n, values "case_number" = some r →
        scopedReplace xml "No. 6461" r = .ok (u, n) →
        validateXml u = false →
        applyReplacements xml values =
          .error ("XML became invalid after replacing No. 6461"))
    ∧ (∀ e, applyReplacements xml values = .error e →
        runCover xml values dryRun tpl outp entries = .error e)
    ∧ (∀ out, runCover xml values false tpl outp entries = .ok (some out) →
        ∃ u counts, applyReplacements xml values = .ok (u, counts)
          ∧ writeDocx tpl outp entries u = .ok out) := by
  refine ⟨?_, ?_, ?_, ?_, ?_⟩
  · intro hmiss
    cases hres : applyReplacements xml values with
    | error e => exact ⟨e, rfl⟩
    | ok res =>
      exfalso
      have hvals := applyLoop_ok_values hres
      rcases hmiss with h | h | h
      · obtain ⟨r, hr⟩ := hvals ("case_number", "No. 6461") (by simp [PLACEHOLDERS])
        rw [h] at hr; exact Option.noConfusion hr
      · obtain ⟨r, hr⟩ := hvals ("filing_name", "APPELLANTS OPENING BRIEF")
          (by simp [PLACEHOLDERS])
        rw [h] at hr; exact Option.noConfusion hr
      · obtain ⟨r, hr⟩ := hvals ("judge", "Hon. Stacy Beckerman")
          (by simp [PLACEHOLDERS])
        rw [h] at hr; exact Option.noConfusion hr
  · intro r e hv hsr
    unfold applyReplacements PLACEHOLDERS
    rw [applyLoop, hv]
    dsimp only
    rw [hsr]
  · intro r u n hv hsr hval
    unfold applyReplacements PLACEHOLDERS
    rw [applyLoop, hv]
    dsimp only
    rw [hsr]
    dsimp only
    rw [if_neg (by simp [hval])]
    rfl
  · intro e herr
    unfold runCover
    rw [herr]
  · intro out hok
    unfold runCover at hok
    cases hres : applyReplacements xml values with
    | error e => rw [hres] at hok; exact absurd hok (by simp)
    | ok ur =>
      obtain ⟨u, counts⟩ := ur
      rw [hres] at hok
      dsimp only at hok
      rw [if_neg (by simp)] at hok
      cases hw : writeDocx tpl outp entries u with
      | error e => rw [hw] at hok; exact absurd hok (by simp)
      | ok out2 =>
        rw [hw] at hok
        simp only [Except.ok.injEq, Option.some.injEq] at hok
        exact ⟨u, counts, rfl, hok ▸ hw⟩

theorem claimC4_witness :
    ∃ e, applyReplacements "<a></a>" (fun _ => none) = Except.error e :=
  (claimC4_no_partial_success "<a></a>" (fun _ => none) false "t" "o" []).1
    (Or.inl rfl)

end GenerateCover

namespace GenerateCover
open Skills

/-! ## Segment view: basic facts -/

theorem splitFirstGt_gtfree_none {cs : List Char} (h : '>' ∉ cs) :
    splitFirstGt cs = none := by
  induction cs with
  | nil => rfl
  | cons c rest ih =>
    have hc : ¬ c = '>' := fun hc => h (by simp [hc])
    rw [splitFirstGt, if_neg hc, ih (fun hm => h (by simp [hm]))]
    rfl

theorem splitFirstGt_append {a t : List Char} (h : '>' ∉ a) :
    splitFirstGt (a ++ '>' :: t) = some (a, t) := by
  induction a with
  | nil => simp [splitFirstGt]
  | cons c rest ih =>
    have hc : ¬ c = '>' := fun hc => h (by simp [hc])
    rw [List.cons_append, splitFirstGt, if_neg hc,
      ih (fun hm => h (by simp [hm]))]
    rfl

theorem splitFirstGt_spec {s a t : List Char} (h : splitFirstGt s = some (a, t)) :
    s = a ++ '>' :: t ∧ '>' ∉ a := by
  induction s generalizing a with
  | nil => simp [splitFirstGt] at h
  | cons c rest ih =>
    by_cases hc : c = '>'
    · rw [splitFirstGt, if_pos hc] at h
      simp only [Option.some.injEq, Prod.mk.injEq] at h
      obtain ⟨rfl, rfl⟩ := h
      subst hc
      simp
    · rw [splitFirstGt, if_neg hc] at h
      cases hs : splitFirstGt rest with
      | none => rw [hs] at h; exact absurd h (by simp)
      | some p =>
        obtain ⟨a0, t0⟩ := p
        rw [hs] at h
        simp only [Option.map_some', Option.some.injEq, Prod.mk.injEq] at h
        obtain ⟨rfl, rfl⟩ := h
        obtain ⟨hrest, hna⟩ := ih hs
        subst hrest
        constructor
        · simp
        · intro hm
          rcases List.mem_cons.mp hm with hm | hm
          · exact hc hm.symm
          · exact hna hm

theorem gt_mem_of_splitFirstGt_some {s a t : List Char}
    (h : splitFirstGt s = some (a, t)) : '>' ∈ s := by
  obtain ⟨rfl, -⟩ := splitFirstGt_spec h
  simp

theorem tryMatch_gtfree_none {ph s : List Char} (h : '>' ∉ s) :
    tryMatch ph s = none := by
  unfold tryMatch
  split
  · rw [splitFirstGt_gtfree_none (fun hm => h (List.mem_of_mem_drop hm))]
  · rfl

theorem scanRep_nil (ph esc : List Char) : scanRep ph esc [] = ([], 0) := by
  rw [scanRep]

theorem scanRep_gtfree {ph esc s : List Char} (h : '>' ∉ s) :
    scanRep ph esc s = (s, 0) := by
  induction s with
  | nil => exact scanRep_nil ph esc
  | cons c rest ih =>
    rw [scanRep, tryMatch_gtfree_none h]
    rw [ih (fun hm => h (by simp [hm]))]

theorem take4_shift {a t : List Char} :
    ((a ++ '>' :: t).take 4 = wtOpen) ↔ (a.take 4 = wtOpen) := by
  by_cases hlen : 4 ≤ a.length
  · rw [List.take_append_eq_append_take, Nat.sub_eq_zero_of_le hlen]
    simp
  · push_neg at hlen
    constructor
    · intro h
      exfalso
      have hmem : '>' ∈ (a ++ '>' :: t).take 4 := by
        have : a.length < 4 := hlen
        rw [List.take_append_eq_append_take]
        refine List.mem_append.mpr (Or.inr ?_)
        have h4 : 1 ≤ 4 - a.length := by omega
        rcases hn : 4 - a.length with - | k
        · omega
        · simp [List.take_succ_cons]
      rw [h] at hmem
      simp [wtOpen] at hmem
    · intro h
      exfalso
      have := congrArg List.length h
      simp [wtOpen, List.length_take] at this
      omega

theorem take_split_iff {t ph : List Char} :
    t.take (ph.length + 6) = ph ++ wtClose ↔
      (t.take ph.length = ph ∧ (t.drop ph.length).take 6 = wtClose) := by
  constructor
  · intro h
    have hlen : ph.length + 6 ≤ t.length := by
      have := congrArg List.length h
      simp [wtClose, List.length_take] at this
      omega
    have hsplit : t.take (ph.length + 6) =
        t.take ph.length ++ (t.drop ph.length).take 6 := by
      rw [List.take_add]
    rw [hsplit] at h
    have h1 : (t.take ph.length).length = ph.length := by
      simp [List.length_take]
      omega
    exact List.append_inj h h1
  · intro ⟨h1, h2⟩
    rw [List.take_add, h1, h2]

end GenerateCover


namespace GenerateCover
open Skills

/-! ## Segment view: evaluating the matcher across one segment -/

theorem tryMatch_seg_match {ph a t : List Char} (ha : '>' ∉ a)
    (h4 : a.take 4 = wtOpen)
    (ht : t.take (ph.length + 6) = ph ++ wtClose) :
    tryMatch ph (a ++ '>' :: t) = some (a ++ ['>'], t.drop (ph.length + 6)) := by
  have hlen : 4 ≤ a.length := by
    have := congrArg List.length h4
    simp [wtOpen, List.length_take] at this
    omega
  have hdrop : (a ++ '>' :: t).drop 4 = a.drop 4 ++ '>' :: t := by
    rw [List.drop_append_eq_append_drop, Nat.sub_eq_zero_of_le hlen]
    simp
  have hcond := take_split_iff.mp ht
  unfold tryMatch
  rw [if_pos (take4_shift.mpr h4), hdrop,
    splitFirstGt_append (fun hm => ha (List.mem_of_mem_drop hm))]
  dsimp only
  rw [if_pos hcond]
  have hgl : wtOpen ++ a.drop 4 = a := by
    rw [← h4, List.take_append_drop]
  have hdd : (t.drop ph.length).drop 6 = t.drop (ph.length + 6) := by
    rw [List.drop_drop, Nat.add_comm]
  rw [hgl, hdd]

theorem tryMatch_seg_nomatch_cond {ph a t : List Char} (ha : '>' ∉ a)
    (h4 : a.take 4 = wtOpen)
    (ht : ¬ t.take (ph.length + 6) = ph ++ wtClose) :
    tryMatch ph (a ++ '>' :: t) = none := by
  have hlen : 4 ≤ a.length := by
    have := congrArg List.length h4
    simp [wtOpen, List.length_take] at this
    omega
  have hdrop : (a ++ '>' :: t).drop 4 = a.drop 4 ++ '>' :: t := by
    rw [List.drop_append_eq_append_drop, Nat.sub_eq_zero_of_le hlen]
    simp
  unfold tryMatch
  rw [if_pos (take4_shift.mpr h4), hdrop,
    splitFirstGt_append (fun hm => ha (List.mem_of_mem_drop hm))]
  dsimp only
  rw [if_neg (fun hc => ht (take_split_iff.mpr hc))]

theorem tryMatch_seg_nomatch_open {ph a t : List Char}
    (h4 : ¬ a.take 4 = wtOpen) :
    tryMatch ph (a ++ '>' :: t) = none := by
  unfold tryMatch
  rw [if_neg (fun hc => h4 (take4_shift.mp hc))]

theorem scanRep_cons_match {ph esc : List Char} {c : Char} {rest g after : List Char}
    (h : tryMatch ph (c :: rest) = some (g, after)) :
    scanRep ph esc (c :: rest) =
      (g ++ esc ++ wtClose ++ (scanRep ph esc after).1,
       (scanRep ph esc after).2 + 1) := by
  rw [scanRep, h]

theorem scanRep_cons_nomatch {ph esc : List Char} {c : Char} {rest : List Char}
    (h : tryMatch ph (c :: rest) = none) :
    scanRep ph esc (c :: rest) =
      (c :: (scanRep ph esc rest).1, (scanRep ph esc rest).2) := by
  rw [scanRep, h]

theorem scanRep_seg_nomatch {ph esc : List Char} :
    ∀ {a t : List Char}, '>' ∉ a →
    ¬ (hasWtOpen a = true ∧ t.take (ph.length + 6) = ph ++ wtClose) →
    scanRep ph esc (a ++ '>' :: t) =
      (a ++ '>' :: (scanRep ph esc t).1, (scanRep ph esc t).2) := by
  intro a
  induction a with
  | nil =>
    intro t ha hmc
    have htm : tryMatch ph ('>' :: t) = none := by
      have h0 : tryMatch ph (([] : List Char) ++ '>' :: t) = none :=
        tryMatch_seg_nomatch_open (by simp [wtOpen])
      simpa using h0
    rw [List.nil_append, scanRep_cons_nomatch htm, List.nil_append]
  | cons c a' ih =>
    intro t ha hmc
    have ha' : '>' ∉ a' := fun hm => ha (by simp [hm])
    by_cases h4 : (c :: a').take 4 = wtOpen
    · have htc : ¬ t.take (ph.length + 6) = ph ++ wtClose := by
        intro htc
        exact hmc ⟨by rw [hasWtOpen]; simp [h4], htc⟩
      have htm := tryMatch_seg_nomatch_cond ha h4 htc
      rw [List.cons_append] at htm ⊢
      rw [scanRep_cons_nomatch htm]
      have hmc' : ¬ (hasWtOpen a' = true ∧
          t.take (ph.length + 6) = ph ++ wtClose) := fun hx => htc hx.2
      rw [ih ha' hmc']
      rfl
    · have htm : tryMatch ph ((c :: a') ++ '>' :: t) = none :=
        tryMatch_seg_nomatch_open h4
      rw [List.cons_append] at htm ⊢
      rw [scanRep_cons_nomatch htm]
      have hmc' : ¬ (hasWtOpen a' = true ∧
          t.take (ph.length + 6) = ph ++ wtClose) := by
        intro hx
        apply hmc
        refine ⟨?_, hx.2⟩
        rw [hasWtOpen]
        simp [hx.1]
      rw [ih ha' hmc']
      rfl

theorem scanRep_seg_match {ph esc : List Char} :
    ∀ {a t : List Char}, '>' ∉ a → hasWtOpen a = true →
    t.take (ph.length + 6) = ph ++ wtClose →
    scanRep ph esc (a ++ '>' :: t) =
      (a ++ '>' :: esc ++ wtClose ++ (scanRep ph esc (t.drop (ph.length + 6))).1,
       (scanRep ph esc (t.drop (ph.length + 6))).2 + 1) := by
  intro a
  induction a with
  | nil => intro t ha hw ht; simp [hasWtOpen] at hw
  | cons c a' ih =>
    intro t ha hw ht
    have ha' : '>' ∉ a' := fun hm => ha (by simp [hm])
    by_cases h4 : (c :: a').take 4 = wtOpen
    · have htm := tryMatch_seg_match ha h4 ht
      rw [List.cons_append] at htm ⊢
      rw [scanRep_cons_match htm]
      simp
    · have hw' : hasWtOpen a' = true := by
        rw [hasWtOpen, Bool.or_eq_true, decide_eq_true_iff] at hw
        exact hw.resolve_left h4
      have htm : tryMatch ph ((c :: a') ++ '>' :: t) = none :=
        tryMatch_seg_nomatch_open h4
      rw [List.cons_append] at htm ⊢
      rw [scanRep_cons_nomatch htm]
      rw [ih ha' hw' ht]
      rfl

end GenerateCover

namespace GenerateCover
open Skills

/-! ## Segment split and join -/

theorem splitGt_ne_nil (s : List Char) : splitGt s ≠ [] := by
  induction s with
  | nil => simp [splitGt]
  | cons c rest ih =>
    rw [splitGt]
    split
    · simp
    · cases hs : splitGt rest with
      | nil => simp
      | cons a as => simp

theorem splitGt_gtfree {s : List Char} (h : '>' ∉ s) : splitGt s = [s] := by
  induction s with
  | nil => rfl
  | cons c rest ih =>
    have hc : ¬ c = '>' := fun hc => h (by simp [hc])
    rw [splitGt, if_neg hc, ih (fun hm => h (by simp [hm]))]

theorem splitGt_append {a t : List Char} (h : '>' ∉ a) :
    splitGt (a ++ '>' :: t) = a :: splitGt t := by
  induction a with
  | nil => simp [splitGt]
  | cons c a' ih =>
    have hc : ¬ c = '>' := fun hc => h (by simp [hc])
    rw [List.cons_append, splitGt, if_neg hc, ih (fun hm => h (by simp [hm]))]

theorem splitGt_segs_gtfree {s : List Char} :
    ∀ seg ∈ splitGt s, '>' ∉ seg := by
  induction s with
  | nil =>
    intro seg hseg
    simp [splitGt] at hseg
    simp [hseg]
  | cons c rest ih =>
    intro seg hseg
    rw [splitGt] at hseg
    by_cases hc : c = '>'
    · rw [if_pos hc] at hseg
      rcases List.mem_cons.mp hseg with rfl | hseg
      · simp
      · exact ih seg hseg
    · rw [if_neg hc] at hseg
      cases hs : splitGt rest with
      | nil => exact absurd hs (splitGt_ne_nil rest)
      | cons a as =>
        rw [hs] at hseg
        rcases List.mem_cons.mp hseg with rfl | hseg
        · intro hm
          rcases List.mem_cons.mp hm with hm | hm
          · exact hc hm.symm
          · exact ih a (by simp [hs]) hm
        · exact ih seg (by simp [hs, hseg])

theorem joinGt_cons_ne {a : List Char} {L : List (List Char)} (h : L ≠ []) :
    joinGt (a :: L) = a ++ '>' :: joinGt L := by
  cases L with
  | nil => exact absurd rfl h
  | cons b rest => rfl

theorem joinGt_splitGt (s : List Char) : joinGt (splitGt s) = s := by
  induction s with
  | nil => rfl
  | cons c rest ih =>
    rw [splitGt]
    by_cases hc : c = '>'
    · rw [if_pos hc, joinGt_cons_ne (splitGt_ne_nil rest), ih, hc]
      simp
    · rw [if_neg hc]
      cases hs : splitGt rest with
      | nil => exact absurd hs (splitGt_ne_nil rest)
      | cons a as =>
        rw [hs] at ih
        cases as with
        | nil =>
          simp only [joinGt] at ih ⊢
          rw [ih]
        | cons b bs =>
          simp only [joinGt] at ih ⊢
          rw [List.cons_append, ih]

theorem splitGt_joinGt : ∀ {A : List (List Char)}, A ≠ [] →
    (∀ seg ∈ A, '>' ∉ seg) → splitGt (joinGt A) = A := by
  intro A
  induction A with
  | nil => intro h; exact absurd rfl h
  | cons a A' ih =>
    intro _ hsegs
    cases A' with
    | nil =>
      show splitGt (joinGt [a]) = [a]
      exact splitGt_gtfree (hsegs a (by simp))
    | cons b R =>
      rw [joinGt_cons_ne (by simp), splitGt_append (hsegs a (by simp))]
      rw [ih (by simp) (fun seg hseg => hsegs seg (by simp [hseg]))]

/-! ## Facts about the segment scanner -/

theorem segScan_nil (ph esc : List Char) : segScan ph esc [] = ([], 0) := by
  rw [segScan.eq_def]

theorem segScan_single (ph esc : List Char) (a : List Char) :
    segScan ph esc [a] = ([a], 0) := by
  rw [segScan.eq_def]

theorem segScan_match {ph esc a b : List Char} {rest : List (List Char)}
    (hcond : rest ≠ [] ∧ hasWtOpen a = true ∧ b = ph ++ wtCloseSeg) :
    segScan ph esc (a :: b :: rest) =
      (a :: (esc ++ wtCloseSeg) :: (segScan ph esc rest).1,
       (segScan ph esc rest).2 + 1) := by
  rw [segScan, if_pos hcond]

theorem segScan_nomatch {ph esc a b : List Char} {rest : List (List Char)}
    (hcond : ¬ (rest ≠ [] ∧ hasWtOpen a = true ∧ b = ph ++ wtCloseSeg)) :
    segScan ph esc (a :: b :: rest) =
      (a :: (segScan ph esc (b :: rest)).1, (segScan ph esc (b :: rest)).2) := by
  rw [segScan, if_neg hcond]

theorem segScan_fst_length {ph esc : List Char} :
    ∀ A : List (List Char), (segScan ph esc A).1.length = A.length := by
  intro A
  induction A using segScan.induct ph esc with
  | case1 a b rest hcond ih =>
    rw [segScan_match hcond]
    simp [ih]
  | case2 a b rest hcond ih =>
    rw [segScan_nomatch hcond]
    simp [ih]
  | case3 A hshape =>
    match A, hshape with
    | [], _ => rw [segScan_nil]
    | [a], _ => rw [segScan_single]
    | a :: b :: rest, hshape => exact absurd rfl (hshape a b rest)

theorem segScan_fst_ne_nil {ph esc : List Char} {A : List (List Char)}
    (h : A ≠ []) : (segScan ph esc A).1 ≠ [] := by
  intro hnil
  have hlen : (segScan ph esc A).1.length = A.length :=
    segScan_fst_length A
  rw [hnil] at hlen
  simp only [List.length_nil] at hlen
  exact h (List.length_eq_zero.mp hlen.symm)

theorem segScan_fst_head (ph esc : List Char) (a : List Char)
    (A : List (List Char)) : ((segScan ph esc (a :: A)).1).head? = some a := by
  cases A with
  | nil => rw [segScan_single]; rfl
  | cons b rest =>
    by_cases hcond : rest ≠ [] ∧ hasWtOpen a = true ∧ b = ph ++ wtCloseSeg
    · rw [segScan_match hcond]; rfl
    · rw [segScan_nomatch hcond]; rfl

theorem segScan_snd_eq_wtOccCount {ph esc : List Char} :
    ∀ A : List (List Char), (segScan ph esc A).2 = wtOccCount ph A := by
  intro A
  induction A using segScan.induct ph esc with
  | case1 a b rest hcond ih =>
    rw [segScan_match hcond, wtOccCount, if_pos hcond, ih]
  | case2 a b rest hcond ih =>
    rw [segScan_nomatch hcond, wtOccCount, if_neg hcond, ih]
  | case3 A hshape =>
    match A, hshape with
    | [], _ => rw [segScan_nil, wtOccCount.eq_def]
    | [a], _ => rw [segScan_single, wtOccCount.eq_def]
    | a :: b :: rest, hshape => exact absurd rfl (hshape a b rest)

theorem segScan_fst_mem {ph esc : List Char} :
    ∀ (A : List (List Char)), ∀ seg ∈ (segScan ph esc A).1,
      seg ∈ A ∨ seg = esc ++ wtCloseSeg := by
  intro A
  induction A using segScan.induct ph esc with
  | case1 a b rest hcond ih =>
    intro seg hseg
    rw [segScan_match hcond] at hseg
    rcases List.mem_cons.mp hseg with rfl | hseg
    · exact Or.inl (by simp)
    · rcases List.mem_cons.mp hseg with rfl | hseg
      · exact Or.inr rfl
      · rcases ih seg hseg with h | h
        · exact Or.inl (by simp [h])
        · exact Or.inr h
  | case2 a b rest hcond ih =>
    intro seg hseg
    rw [segScan_nomatch hcond] at hseg
    rcases List.mem_cons.mp hseg with rfl | hseg
    · exact Or.inl (by simp)
    · rcases ih seg hseg with h | h
      · exact Or.inl (by simp [List.mem_cons.mp h])
      · exact Or.inr h
  | case3 A hshape =>
    intro seg hseg
    match A, hseg, hshape with
    | [], hseg, _ =>
      rw [segScan_nil] at hseg
      simp at hseg
    | [a], hseg, _ =>
      rw [segScan_single] at hseg
      simp at hseg
      exact Or.inl (by simp [hseg])
    | a :: b :: rest, hseg, hshape => exact absurd rfl (hshape a b rest)

theorem segScan_segs_gtfree {ph esc : List Char} {A : List (List Char)}
    (hesc : '>' ∉ esc) (hA : ∀ seg ∈ A, '>' ∉ seg) :
    ∀ seg ∈ (segScan ph esc A).1, '>' ∉ seg := by
  intro seg hseg
  rcases segScan_fst_mem A seg hseg with h | h
  · exact hA seg h
  · rw [h]
    intro hm
    rcases List.mem_append.mp hm with hm | hm
    · exact hesc hm
    · simp [wtCloseSeg] at hm

end GenerateCover

namespace GenerateCover
open Skills

/-! ## The character scan computes the segment scan -/

theorem wtClose_eq : wtClose = wtCloseSeg ++ ['>'] := rfl

theorem gt_not_mem_wtCloseSeg : '>' ∉ wtCloseSeg := by decide

theorem splitFirstGt_none_gtfree {s : List Char} (h : splitFirstGt s = none) :
    '>' ∉ s := by
  induction s with
  | nil => simp
  | cons c rest ih =>
    intro hm
    by_cases hc : c = '>'
    · rw [splitFirstGt, if_pos hc] at h
      exact Option.noConfusion h
    · rw [splitFirstGt, if_neg hc] at h
      rcases List.mem_cons.mp hm with hm | hm
      · exact hc hm.symm
      · cases ho : splitFirstGt rest with
        | none => exact ih ho hm
        | some p => rw [ho] at h; exact Option.noConfusion h

theorem seg_match_decomp {ph t b : List Char} {R : List (List Char)}
    (hph : '>' ∉ ph) (hB : splitGt t = b :: R)
    (ht : t.take (ph.length + 6) = ph ++ wtClose) :
    b = ph ++ wtCloseSeg ∧ R = splitGt (t.drop (ph.length + 6)) ∧ R ≠ [] := by
  have hfree : '>' ∉ ph ++ wtCloseSeg := by
    intro hm
    rcases List.mem_append.mp hm with hm | hm
    · exact hph hm
    · exact gt_not_mem_wtCloseSeg hm
  have hdecomp : t = (ph ++ wtCloseSeg) ++ '>' :: t.drop (ph.length + 6) := by
    conv_lhs => rw [← List.take_append_drop (ph.length + 6) t]
    rw [ht, wtClose_eq]
    simp
  have hsplit : splitGt t =
      (ph ++ wtCloseSeg) :: splitGt (t.drop (ph.length + 6)) := by
    conv_lhs => rw [hdecomp]
    exact splitGt_append hfree
  rw [hB] at hsplit
  simp only [List.cons.injEq] at hsplit
  exact ⟨hsplit.1, hsplit.2, hsplit.2 ▸ splitGt_ne_nil _⟩

theorem seg_cond_iff {ph t b : List Char} {R : List (List Char)}
    (hph : '>' ∉ ph) (hB : splitGt t = b :: R) :
    (R ≠ [] ∧ b = ph ++ wtCloseSeg) ↔
      t.take (ph.length + 6) = ph ++ wtClose := by
  constructor
  · intro ⟨hRne, hb⟩
    have hgt : '>' ∈ t := by
      by_contra hgt
      rw [splitGt_gtfree hgt] at hB
      simp only [List.cons.injEq] at hB
      exact hRne hB.2.symm
    obtain ⟨⟨b0, t0⟩, hsp⟩ : ∃ p, splitFirstGt t = some p := by
      cases ho : splitFirstGt t with
      | none => exact absurd (splitFirstGt_none_gtfree ho) (by simpa using hgt)
      | some p => exact ⟨p, rfl⟩
    obtain ⟨hteq, hb0⟩ := splitFirstGt_spec hsp
    rw [hteq, splitGt_append hb0] at hB
    simp only [List.cons.injEq] at hB
    obtain ⟨rfl, -⟩ := hB
    rw [hteq, hb]
    have hlen : (ph ++ wtCloseSeg).length = ph.length + 5 := by
      simp [wtCloseSeg]
    rw [List.take_append_eq_append_take, hlen]
    have h1 : ph.length + 6 - (ph.length + 5) = 1 := by omega
    rw [h1]
    have h2 : (ph ++ wtCloseSeg).take (ph.length + 6) = ph ++ wtCloseSeg := by
      apply List.take_of_length_le
      omega
    rw [h2, wtClose_eq]
    simp
  · intro ht
    obtain ⟨hb, hR, hRne⟩ := seg_match_decomp hph hB ht
    exact ⟨hRne, hb⟩

theorem scanRep_eq_segScan_aux {ph esc : List Char} (hph : '>' ∉ ph) :
    ∀ (n : Nat) (s : List Char), s.length ≤ n →
      scanRep ph esc s =
        (joinGt (segScan ph esc (splitGt s)).1,
         (segScan ph esc (splitGt s)).2) := by
  intro n
  induction n with
  | zero =>
    intro s hs
    have hnil : s = [] := List.length_eq_zero.mp (Nat.le_zero.mp hs)
    subst hnil
    rw [scanRep_nil]
    show ([], 0) = (joinGt (segScan ph esc [[]]).1, (segScan ph esc [[]]).2)
    rw [segScan_single]
    rfl
  | succ n ih =>
    intro s hs
    by_cases hgt : '>' ∈ s
    · obtain ⟨⟨a, t⟩, hsp⟩ : ∃ p, splitFirstGt s = some p := by
        cases ho : splitFirstGt s with
        | none => exact absurd (splitFirstGt_none_gtfree ho) (by simpa using hgt)
        | some p => exact ⟨p, rfl⟩
      obtain ⟨hseq, ha⟩ := splitFirstGt_spec hsp
      subst hseq
      have hlen_t : t.length ≤ n := by
        simp only [List.length_append, List.length_cons] at hs
        omega
      rw [splitGt_append ha]
      cases hB : splitGt t with
      | nil => exact absurd hB (splitGt_ne_nil t)
      | cons b R =>
        by_cases hcond : hasWtOpen a = true ∧
            t.take (ph.length + 6) = ph ++ wtClose
        · obtain ⟨hw, ht⟩ := hcond
          obtain ⟨hb, hR, hRne⟩ := seg_match_decomp hph hB ht
          rw [scanRep_seg_match ha hw ht, segScan_match ⟨hRne, hw, hb⟩]
          have hlen' : (t.drop (ph.length + 6)).length ≤ n := by
            simp only [List.length_drop]
            omega
          rw [hR, ih (t.drop (ph.length + 6)) hlen']
          have hZ : (segScan ph esc (splitGt (t.drop (ph.length + 6)))).1 ≠ [] :=
            segScan_fst_ne_nil (splitGt_ne_nil _)
          rw [joinGt_cons_ne (by simp), joinGt_cons_ne hZ]
          rw [wtClose_eq]
          simp
        · have hsegcond : ¬ (R ≠ [] ∧ hasWtOpen a = true ∧
              b = ph ++ wtCloseSeg) := by
            intro ⟨hRne, hw, hb⟩
            exact hcond ⟨hw, (seg_cond_iff hph hB).mp ⟨hRne, hb⟩⟩
          rw [scanRep_seg_nomatch ha hcond, segScan_nomatch hsegcond, ← hB,
            ih t hlen_t]
          have hW : (segScan ph esc (splitGt t)).1 ≠ [] :=
            segScan_fst_ne_nil (splitGt_ne_nil t)
          rw [joinGt_cons_ne hW]
    · rw [scanRep_gtfree hgt, splitGt_gtfree hgt, segScan_single]
      rfl

/-- The character-level `_scoped_replace` scan equals the segment view:
the output is the document with each matched pair rewritten, and the count
is the segment-pair occurrence count. -/
theorem scanRep_eq_segScan {ph esc : List Char} (hph : '>' ∉ ph)
    (s : List Char) :
    scanRep ph esc s =
      (joinGt (segScan ph esc (splitGt s)).1, wtOccCount ph (splitGt s)) := by
  rw [scanRep_eq_segScan_aux hph s.length s (Nat.le_refl _),
    segScan_snd_eq_wtOccCount]

end GenerateCover

namespace GenerateCover
open Skills

/-! ## No matches survive substitution (C9 core) -/

theorem wtOccCount_nil (ph : List Char) : wtOccCount ph [] = 0 := by
  rw [wtOccCount.eq_def]

theorem wtOccCount_single (ph a : List Char) : wtOccCount ph [a] = 0 := by
  rw [wtOccCount.eq_def]

theorem wtOccCount_tail {q x : List Char} {xs : List (List Char)}
    (h : wtOccCount q (x :: xs) = 0) : wtOccCount q xs = 0 := by
  cases xs with
  | nil => rw [wtOccCount.eq_def]
  | cons b rest =>
    rw [wtOccCount] at h
    split at h
    · simp at h
    · exact h

theorem hasWtOpen_escClose {esc : List Char} (h : '<' ∉ esc) :
    hasWtOpen (esc ++ wtCloseSeg) = false := by
  induction esc with
  | nil => decide
  | cons c rest ih =>
    have hc : ¬ c = '<' := fun hc => h (by simp [hc])
    rw [List.cons_append, hasWtOpen]
    simp only [Bool.or_eq_false_iff]
    constructor
    · simp only [decide_eq_false_iff_not]
      intro he
      apply hc
      have := congrArg List.head? he
      simpa [wtOpen] using this
    · exact ih (fun hm => h (by simp [hm]))

theorem wtOccCount_segScan_self {ph esc : List Char}
    (hne : esc ≠ ph) (hlt : '<' ∉ esc) :
    ∀ A : List (List Char), wtOccCount ph (segScan ph esc A).1 = 0 := by
  intro A
  induction A using segScan.induct ph esc with
  | case1 a b rest hcond ih =>
    rw [segScan_match hcond]
    dsimp only
    rw [wtOccCount, if_neg (fun hx => hne (List.append_cancel_right hx.2.2))]
    cases hZ : (segScan ph esc rest).1 with
    | nil => rw [wtOccCount_single]
    | cons z zs =>
      rw [wtOccCount,
        if_neg (fun hx => by
          rw [hasWtOpen_escClose hlt] at hx
          exact Bool.noConfusion hx.2.1)]
      rw [← hZ]
      exact ih
  | case2 a b rest hcond ih =>
    rw [segScan_nomatch hcond]
    dsimp only
    cases hW : (segScan ph esc (b :: rest)).1 with
    | nil => exact absurd hW (segScan_fst_ne_nil (by simp))
    | cons w ws =>
      have hwb : w = b := by
        have := segScan_fst_head ph esc b rest
        rw [hW] at this
        simpa using this
      rw [wtOccCount]
      rw [if_neg ?hc3]
      case hc3 =>
        intro hx
        apply hcond
        refine ⟨?_, hx.2.1, hwb ▸ hx.2.2⟩
        intro hrest
        have hlen : (segScan ph esc (b :: rest)).1.length
            = (b :: rest).length := segScan_fst_length (b :: rest)
        rw [hW, hrest] at hlen
        simp at hlen
        exact hx.1 hlen
      rw [← hW]
      exact ih
  | case3 A hshape =>
    match A, hshape with
    | [], _ => rw [segScan_nil, wtOccCount_nil]
    | [a], _ => rw [segScan_single, wtOccCount_single]
    | a :: b :: rest, hshape => exact absurd rfl (hshape a b rest)

theorem wtOccCount_segScan_other {ph q esc : List Char}
    (hne : esc ≠ q) (hlt : '<' ∉ esc) (A : List (List Char))
    (hq : wtOccCount q A = 0) :
    wtOccCount q (segScan ph esc A).1 = 0 := by
  induction A using segScan.induct ph esc with
  | case1 a b rest hcond ih =>
    have hqrest : wtOccCount q rest = 0 :=
      wtOccCount_tail (wtOccCount_tail hq)
    rw [segScan_match hcond]
    dsimp only
    rw [wtOccCount, if_neg (fun hx => hne (List.append_cancel_right hx.2.2))]
    cases hZ : (segScan ph esc rest).1 with
    | nil => rw [wtOccCount_single]
    | cons z zs =>
      rw [wtOccCount,
        if_neg (fun hx => by
          rw [hasWtOpen_escClose hlt] at hx
          exact Bool.noConfusion hx.2.1)]
      rw [← hZ]
      exact ih hqrest
  | case2 a b rest hcond ih =>
    have hqtail : wtOccCount q (b :: rest) = 0 := wtOccCount_tail hq
    rw [segScan_nomatch hcond]
    dsimp only
    cases hW : (segScan ph esc (b :: rest)).1 with
    | nil => exact absurd hW (segScan_fst_ne_nil (by simp))
    | cons w ws =>
      have hwb : w = b := by
        have := segScan_fst_head ph esc b rest
        rw [hW] at this
        simpa using this
      rw [wtOccCount]
      rw [if_neg ?hc4]
      case hc4 =>
        intro hx
        have hrestne : rest ≠ [] := by
          intro hrest
          have hlen : (segScan ph esc (b :: rest)).1.length
            = (b :: rest).length := segScan_fst_length (b :: rest)
          rw [hW, hrest] at hlen
          simp at hlen
          exact hx.1 hlen
        rw [wtOccCount, if_pos ⟨hrestne, hx.2.1, hwb ▸ hx.2.2⟩] at hq
        simp at hq
      rw [← hW]
      exact ih hqtail
  | case3 A hshape =>
    match A, hq, hshape with
    | [], _, _ => rw [segScan_nil, wtOccCount_nil]
    | [a], _, _ => rw [segScan_single, wtOccCount_single]
    | a :: b :: rest, _, hshape => exact absurd rfl (hshape a b rest)

end GenerateCover

namespace GenerateCover
open Skills

/-! ## Escaped text contains no angle brackets -/

theorem escapeChar_no_angle (c : Char) :
    '<' ∉ escapeChar c ∧ '>' ∉ escapeChar c := by
  unfold escapeChar
  split_ifs with h1 h2 h3 h4 h5
  · exact ⟨by decide, by decide⟩
  · exact ⟨by decide, by decide⟩
  · exact ⟨by decide, by decide⟩
  · exact ⟨by decide, by decide⟩
  · exact ⟨by decide, by decide⟩
  · refine ⟨fun hm => ?_, fun hm => ?_⟩
    · simp at hm; exact h2 hm.symm
    · simp at hm; exact h3 hm.symm

theorem htmlEscapeL_no_angle (cs : List Char) :
    '<' ∉ htmlEscapeL cs ∧ '>' ∉ htmlEscapeL cs := by
  induction cs with
  | nil => simp [htmlEscapeL]
  | cons c rest ih =>
    rw [htmlEscapeL, List.flatMap_cons]
    constructor <;> intro hm <;> rcases List.mem_append.mp hm with hm | hm
    · exact (escapeChar_no_angle c).1 hm
    · exact ih.1 hm
    · exact (escapeChar_no_angle c).2 hm
    · exact ih.2 hm

theorem htmlEscape_no_lt (s : String) : '<' ∉ (htmlEscape s).toList :=
  (htmlEscapeL_no_angle s.toList).1

theorem htmlEscape_no_gt (s : String) : '>' ∉ (htmlEscape s).toList :=
  (htmlEscapeL_no_angle s.toList).2

theorem toList_inj {a b : String} (h : a.toList = b.toList) : a = b := by
  cases a; cases b
  exact congrArg String.mk (by simpa using h)

/-- On success, the output of `scopedReplace` splits at `'>'` exactly into
the segments produced by the segment-level scan of the input. -/
theorem scopedReplace_out_splitGt {xml u ph repl : String} {c : Nat}
    (hph : '>' ∉ ph.toList)
    (h : scopedReplace xml ph repl = Except.ok (u, c)) :
    splitGt u.toList =
      (segScan ph.toList (htmlEscape repl).toList (splitGt xml.toList)).1 := by
  unfold scopedReplace at h
  rw [scanRep_eq_segScan hph] at h
  dsimp only at h
  split at h
  · exact absurd h (by simp)
  · simp only [Except.ok.injEq, Prod.mk.injEq] at h
    obtain ⟨hu, -⟩ := h
    rw [← hu]
    show splitGt (joinGt _) = _
    exact splitGt_joinGt (segScan_fst_ne_nil (splitGt_ne_nil _))
      (segScan_segs_gtfree (htmlEscape_no_gt _) splitGt_segs_gtfree)

/-- After a successful `scopedReplace` whose escaped replacement differs from
`ph`, the pattern for `ph` has no further occurrence in the output. -/
theorem scopedReplace_count_self {xml u ph repl : String} {c : Nat}
    (hph : '>' ∉ ph.toList)
    (hne : (htmlEscape repl).toList ≠ ph.toList)
    (h : scopedReplace xml ph repl = Except.ok (u, c)) :
    wtOccCount ph.toList (splitGt u.toList) = 0 := by
  rw [scopedReplace_out_splitGt hph h]
  exact wtOccCount_segScan_self hne (htmlEscape_no_lt repl) _

/-- A successful `scopedReplace` for `ph` whose escaped replacement differs
from `q` cannot create an occurrence of the pattern for `q`. -/
theorem scopedReplace_count_other {xml u ph repl q : String} {c : Nat}
    (hph : '>' ∉ ph.toList)
    (hne : (htmlEscape repl).toList ≠ q.toList)
    (h : scopedReplace xml ph repl = Except.ok (u, c))
    (hq : wtOccCount q.toList (splitGt xml.toList) = 0) :
    wtOccCount q.toList (splitGt u.toList) = 0 := by
  rw [scopedReplace_out_splitGt hph h]
  exact wtOccCount_segScan_other hne (htmlEscape_no_lt repl) _ hq

/-- When the pattern for `ph` has no occurrence, `scopedReplace` raises the
not-found error. -/
theorem scopedReplace_error_of_count_zero {xml ph : String} (repl : String)
    (hph : '>' ∉ ph.toList)
    (h0 : wtOccCount ph.toList (splitGt xml.toList) = 0) :
    scopedReplace xml ph repl =
      Except.error ("Placeholder " ++ ph ++ " not found in any <w:t> node") := by
  unfold scopedReplace
  rw [scanRep_eq_segScan hph]
  dsimp only
  rw [h0, if_pos rfl]

end GenerateCover

namespace GenerateCover
open Skills

/-! ## Claim C3: scoped replacement -/

set_option maxRecDepth 10000 in
/-- Claim C3 counterexample: in a well-formed document whose first `w:t`
opening tag carries an attribute value containing `'>'`, the placeholder is
the entire text content of two `w:t` text-run nodes, but `_scoped_replace`
finds and replaces only one of them and returns count 1, not 2: the
returned count does not equal the number of occurrences scoped strictly
inside `<w:t>` text-run nodes. -/
theorem claimC3_counterexample :
    specWtOccurrences "No. 6461"
      "<a><w:t b=\"x>y\">No. 6461</w:t><w:t>No. 6461</w:t></a>" = 2
    ∧ scopedReplace
        "<a><w:t b=\"x>y\">No. 6461</w:t><w:t>No. 6461</w:t></a>"
        "No. 6461" "FILLED"
      = Except.ok ("<a><w:t b=\"x>y\">No. 6461</w:t><w:t>FILLED</w:t></a>", 1) := by
  constructor
  · decide
  · have h : scanRep "No. 6461".toList (htmlEscape "FILLED").toList
        "<a><w:t b=\"x>y\">No. 6461</w:t><w:t>No. 6461</w:t></a>".toList
      = (joinGt (segScan "No. 6461".toList (htmlEscape "FILLED").toList
            (splitGt
              "<a><w:t b=\"x>y\">No. 6461</w:t><w:t>No. 6461</w:t></a>".toList)).1,
         wtOccCount "No. 6461".toList
           (splitGt
             "<a><w:t b=\"x>y\">No. 6461</w:t><w:t>No. 6461</w:t></a>".toList)) :=
      scanRep_eq_segScan (by decide) _
    unfold scopedReplace
    rw [h]
    have hcnt : wtOccCount "No. 6461".toList
        (splitGt "<a><w:t b=\"x>y\">No. 6461</w:t><w:t>No. 6461</w:t></a>".toList) = 1 := by
      simp [splitGt, wtOccCount, hasWtOpen, wtOpen, wtCloseSeg]
    have hjoin : joinGt (segScan "No. 6461".toList (htmlEscape "FILLED").toList
        (splitGt "<a><w:t b=\"x>y\">No. 6461</w:t><w:t>No. 6461</w:t></a>".toList)).1
        = "<a><w:t b=\"x>y\">No. 6461</w:t><w:t>FILLED</w:t></a>".toList := by
      simp [splitGt, segScan, joinGt, hasWtOpen, wtOpen, wtCloseSeg, htmlEscape,
        htmlEscapeL, escapeChar]
    rw [hcnt, hjoin]
    norm_num

/-- Claim C3 (amended): for a placeholder containing no `'>'` character (all
three configured placeholders qualify), `_scoped_replace` substitutes exactly
the occurrences of the placeholder that form the whole text of a `w:t`
text-run node whose opening tag `<w:t...>` contains no further `'>'` (the
occurrences the regex `(<w:t[^>]*>)ph(</w:t>)` matches), replacing each with
the HTML-escaped replacement value; the returned count equals the number of
those occurrences, and when there are none it raises the not-found error.
Occurrences whose opening tag carries a `'>'` inside an attribute value are
missed, as the counterexample shows. -/
theorem claimC3_amended (xmlText placeholder replacement : String)
    (hph : '>' ∉ placeholder.toList) :
    scopedReplace xmlText placeholder replacement =
      if wtOccCount placeholder.toList (splitGt xmlText.toList) = 0 then
        Except.error ("Placeholder " ++ placeholder
          ++ " not found in any <w:t> node")
      else
        Except.ok
          (⟨joinGt (segScan placeholder.toList
              (htmlEscape replacement).toList (splitGt xmlText.toList)).1⟩,
           wtOccCount placeholder.toList (splitGt xmlText.toList)) := by
  unfold scopedReplace
  rw [scanRep_eq_segScan hph]

/-- Claim C3 amended witness: the amended theorem applied to a concrete
single-occurrence document. -/
theorem claimC3_witness :
    '>' ∉ "No. 6461".toList
    ∧ scopedReplace "<p><w:t>No. 6461</w:t></p>" "No. 6461" "X" =
        (if wtOccCount "No. 6461".toList
            (splitGt "<p><w:t>No. 6461</w:t></p>".toList) = 0 then
          Except.error ("Placeholder " ++ "No. 6461"
            ++ " not found in any <w:t> node")
        else
          Except.ok
            (⟨joinGt (segScan "No. 6461".toList (htmlEscape "X").toList
                (splitGt "<p><w:t>No. 6461</w:t></p>".toList)).1⟩,
             wtOccCount "No. 6461".toList
               (splitGt "<p><w:t>No. 6461</w:t></p>".toList))) :=
  ⟨by decide, claimC3_amended "<p><w:t>No. 6461</w:t></p>" "No. 6461" "X"
    (by decide)⟩

end GenerateCover


namespace GenerateCover
open Skills

/-! ## Claim C9: re-application of the substitution -/

/-- A document holding each configured placeholder in its own `w:t` node,
declaring the `w:` prefix so the expat parser accepts it. -/
def xmlSelf : String :=
  "<d xmlns:w=\"urn:w\"><w:t>No. 6461</w:t><w:t>APPELLANTS OPENING BRIEF</w:t><w:t>Hon. Stacy Beckerman</w:t></d>"

/-- Replacement values that are exactly the placeholder texts themselves. -/
def valuesSelf : String → Option String := fun k =>
  if k = "case_number" then some "No. 6461"
  else if k = "filing_name" then some "APPELLANTS OPENING BRIEF"
  else if k = "judge" then some "Hon. Stacy Beckerman"
  else none

set_option maxRecDepth 40000 in
/-- Claim C9 counterexample: when every replacement value equals its
placeholder text, `apply_replacements` succeeds and returns the input
unchanged, so a second run on the output is the very same successful call
and raises no error at all — re-application does not always fail with the
placeholder-not-found error. -/
theorem claimC9_counterexample :
    applyReplacements xmlSelf valuesSelf
      = Except.ok (xmlSelf,
          [("case_number", 1), ("filing_name", 1), ("judge", 1)])
    ∧ ∀ e : String, applyReplacements xmlSelf valuesSelf ≠ Except.error e := by
  have h1 : scopedReplace xmlSelf "No. 6461" "No. 6461"
      = Except.ok (xmlSelf, 1) := by
    unfold scopedReplace
    rw [scanRep_eq_segScan (show ('>':Char) ∉ "No. 6461".toList by decide)]
    have hcnt : wtOccCount "No. 6461".toList (splitGt xmlSelf.toList) = 1 := by
      simp [xmlSelf, splitGt, wtOccCount, hasWtOpen, wtOpen, wtCloseSeg]
    have hjoin : joinGt (segScan "No. 6461".toList
        (htmlEscape "No. 6461").toList (splitGt xmlSelf.toList)).1
        = xmlSelf.toList := by
      simp [xmlSelf, splitGt, segScan, joinGt, hasWtOpen, wtOpen, wtCloseSeg,
        htmlEscape, htmlEscapeL, escapeChar]
    rw [hcnt, hjoin]
    norm_num
  have h2 : scopedReplace xmlSelf "APPELLANTS OPENING BRIEF"
      "APPELLANTS OPENING BRIEF" = Except.ok (xmlSelf, 1) := by
    unfold scopedReplace
    rw [scanRep_eq_segScan
      (show ('>':Char) ∉ "APPELLANTS OPENING BRIEF".toList by decide)]
    have hcnt : wtOccCount "APPELLANTS OPENING BRIEF".toList
        (splitGt xmlSelf.toList) = 1 := by
      simp [xmlSelf, splitGt, wtOccCount, hasWtOpen, wtOpen, wtCloseSeg]
    have hjoin : joinGt (segScan "APPELLANTS OPENING BRIEF".toList
        (htmlEscape "APPELLANTS OPENING BRIEF").toList
        (splitGt xmlSelf.toList)).1 = xmlSelf.toList := by
      simp [xmlSelf, splitGt, segScan, joinGt, hasWtOpen, wtOpen, wtCloseSeg,
        htmlEscape, htmlEscapeL, escapeChar]
    rw [hcnt, hjoin]
    norm_num
  have h3 : scopedReplace xmlSelf "Hon. Stacy Beckerman"
      "Hon. Stacy Beckerman" = Except.ok (xmlSelf, 1) := by
    unfold scopedReplace
    rw [scanRep_eq_segScan
      (show ('>':Char) ∉ "Hon. Stacy Beckerman".toList by decide)]
    have hcnt : wtOccCount "Hon. Stacy Beckerman".toList
        (splitGt xmlSelf.toList) = 1 := by
      simp [xmlSelf, splitGt, wtOccCount, hasWtOpen, wtOpen, wtCloseSeg]
    have hjoin : joinGt (segScan "Hon. Stacy Beckerman".toList
        (htmlEscape "Hon. Stacy Beckerman").toList
        (splitGt xmlSelf.toList)).1 = xmlSelf.toList := by
      simp [xmlSelf, splitGt, segScan, joinGt, hasWtOpen, wtOpen, wtCloseSeg,
        htmlEscape, htmlEscapeL, escapeChar]
    rw [hcnt, hjoin]
    norm_num
  have hval : validateXml xmlSelf = true := by decide
  have hmain : applyReplacements xmlSelf valuesSelf
      = Except.ok (xmlSelf,
          [("case_number", 1), ("filing_name", 1), ("judge", 1)]) := by
    unfold applyReplacements PLACEHOLDERS
    rw [applyLoop]
    have hv1 : valuesSelf "case_number" = some "No. 6461" := by decide
    rw [hv1]
    dsimp only
    rw [h1]
    dsimp only
    rw [hval]
    simp only [if_true, List.nil_append]
    rw [applyLoop]
    have hv2 : valuesSelf "filing_name"
        = some "APPELLANTS OPENING BRIEF" := by decide
    rw [hv2]
    dsimp only
    rw [h2]
    dsimp only
    rw [hval]
    simp only [if_true, List.cons_append, List.nil_append]
    rw [applyLoop]
    have hv3 : valuesSelf "judge" = some "Hon. Stacy Beckerman" := by decide
    rw [hv3]
    dsimp only
    rw [h3]
    dsimp only
    rw [hval]
    simp only [if_true, List.cons_append, List.nil_append]
    rw [applyLoop]
  refine ⟨hmain, fun e he => ?_⟩
  rw [hmain] at he
  exact Except.noConfusion he

end GenerateCover


namespace GenerateCover
open Skills

/-- Claim C9 (amended): re-application fails provided no escaped replacement
value of the first run equals the case-number placeholder text and the second
run supplies a case-number value: if `apply_replacements` succeeds on `xml`
with values `v` whose HTML-escaped values all differ from `"No. 6461"`, then
a second run on the output — with any values `v2` providing a `case_number`
entry — raises the placeholder-not-found error for `"No. 6461"`, because the
first pass of the first run removed every scoped occurrence of that
placeholder and later passes cannot re-create one. -/
theorem claimC9_amended {xml out : String} {v v2 : String → Option String}
    {counts : List (String × Nat)} {rNew : String}
    (h1 : applyReplacements xml v = Except.ok (out, counts))
    (h2 : ∀ k r, v k = some r → htmlEscape r ≠ "No. 6461")
    (h3 : v2 "case_number" = some rNew) :
    applyReplacements out v2
      = Except.error ("Placeholder " ++ "No. 6461"
          ++ " not found in any <w:t> node") := by
  unfold applyReplacements PLACEHOLDERS at h1
  rw [applyLoop] at h1
  cases hv1 : v "case_number" with
  | none => rw [hv1] at h1; exact absurd h1 (by simp)
  | some r1 =>
  rw [hv1] at h1
  dsimp only at h1
  cases hs1 : scopedReplace xml "No. 6461" r1 with
  | error e => rw [hs1] at h1; exact absurd h1 (by simp)
  | ok p1 =>
  obtain ⟨u1, c1⟩ := p1
  rw [hs1] at h1
  dsimp only at h1
  by_cases hval1 : validateXml u1 = true
  case neg => rw [if_neg hval1] at h1; exact absurd h1 (by simp)
  rw [if_pos hval1] at h1
  rw [applyLoop] at h1
  cases hv2 : v "filing_name" with
  | none => rw [hv2] at h1; exact absurd h1 (by simp)
  | some r2 =>
  rw [hv2] at h1
  dsimp only at h1
  cases hs2 : scopedReplace u1 "APPELLANTS OPENING BRIEF" r2 with
  | error e => rw [hs2] at h1; exact absurd h1 (by simp)
  | ok p2 =>
  obtain ⟨u2, c2⟩ := p2
  rw [hs2] at h1
  dsimp only at h1
  by_cases hval2 : validateXml u2 = true
  case neg => rw [if_neg hval2] at h1; exact absurd h1 (by simp)
  rw [if_pos hval2] at h1
  rw [applyLoop] at h1
  cases hv3 : v "judge" with
  | none => rw [hv3] at h1; exact absurd h1 (by simp)
  | some r3 =>
  rw [hv3] at h1
  dsimp only at h1
  cases hs3 : scopedReplace u2 "Hon. Stacy Beckerman" r3 with
  | error e => rw [hs3] at h1; exact absurd h1 (by simp)
  | ok p3 =>
  obtain ⟨u3, c3⟩ := p3
  rw [hs3] at h1
  dsimp only at h1
  by_cases hval3 : validateXml u3 = true
  case neg => rw [if_neg hval3] at h1; exact absurd h1 (by simp)
  rw [if_pos hval3] at h1
  rw [applyLoop] at h1
  simp only [Except.ok.injEq, Prod.mk.injEq] at h1
  obtain ⟨hout, -⟩ := h1
  have hne1 : (htmlEscape r1).toList ≠ "No. 6461".toList :=
    fun hx => h2 "case_number" r1 hv1 (toList_inj hx)
  have hne2 : (htmlEscape r2).toList ≠ "No. 6461".toList :=
    fun hx => h2 "filing_name" r2 hv2 (toList_inj hx)
  have hne3 : (htmlEscape r3).toList ≠ "No. 6461".toList :=
    fun hx => h2 "judge" r3 hv3 (toList_inj hx)
  have hc1 : wtOccCount "No. 6461".toList (splitGt u1.toList) = 0 :=
    scopedReplace_count_self (by decide) hne1 hs1
  have hc2 : wtOccCount "No. 6461".toList (splitGt u2.toList) = 0 :=
    scopedReplace_count_other (by decide) hne2 hs2 hc1
  have hc3 : wtOccCount "No. 6461".toList (splitGt u3.toList) = 0 :=
    scopedReplace_count_other (by decide) hne3 hs3 hc2
  have hcout : wtOccCount "No. 6461".toList (splitGt out.toList) = 0 := by
    rw [← hout]; exact hc3
  unfold applyReplacements PLACEHOLDERS
  rw [applyLoop, h3]
  dsimp only
  rw [scopedReplace_error_of_count_zero rNew (by decide) hcout]

end GenerateCover


namespace GenerateCover
open Skills

/-- Distinct replacement values none of whose escaped forms is a
placeholder text. -/
def valuesRun : String → Option String := fun k =>
  if k = "case_number" then some "No. 25-999"
  else if k = "filing_name" then some "REPLY BRIEF"
  else if k = "judge" then some "Hon. J. Smith"
  else none

/-- The output of running `applyReplacements` on `xmlSelf` with
`valuesRun`. -/
def outRun : String :=
  "<d xmlns:w=\"urn:w\"><w:t>No. 25-999</w:t><w:t>REPLY BRIEF</w:t><w:t>Hon. J. Smith</w:t></d>"

set_option maxRecDepth 40000 in
/-- Claim C9 amended witness: a concrete successful first run whose escaped
values differ from the case-number placeholder; the amended theorem yields
the not-found error on the second run. -/
theorem claimC9_witness :
    applyReplacements xmlSelf valuesRun
      = Except.ok (outRun,
          [("case_number", 1), ("filing_name", 1), ("judge", 1)])
    ∧ (∀ k r, valuesRun k = some r → htmlEscape r ≠ "No. 6461")
    ∧ valuesRun "case_number" = some "No. 25-999"
    ∧ applyReplacements outRun valuesRun
        = Except.error ("Placeholder " ++ "No. 6461"
            ++ " not found in any <w:t> node") := by
  have hp1 : scopedReplace xmlSelf "No. 6461" "No. 25-999"
      = Except.ok
          ("<d xmlns:w=\"urn:w\"><w:t>No. 25-999</w:t><w:t>APPELLANTS OPENING BRIEF</w:t><w:t>Hon. Stacy Beckerman</w:t></d>",
           1) := by
    unfold scopedReplace
    rw [scanRep_eq_segScan (show ('>':Char) ∉ "No. 6461".toList by decide)]
    have hcnt : wtOccCount "No. 6461".toList (splitGt xmlSelf.toList) = 1 := by
      simp [xmlSelf, splitGt, wtOccCount, hasWtOpen, wtOpen, wtCloseSeg]
    have hjoin : joinGt (segScan "No. 6461".toList
        (htmlEscape "No. 25-999").toList (splitGt xmlSelf.toList)).1
        = "<d xmlns:w=\"urn:w\"><w:t>No. 25-999</w:t><w:t>APPELLANTS OPENING BRIEF</w:t><w:t>Hon. Stacy Beckerman</w:t></d>".toList := by
      simp [xmlSelf, splitGt, segScan, joinGt, hasWtOpen, wtOpen, wtCloseSeg,
        htmlEscape, htmlEscapeL, escapeChar]
    rw [hcnt, hjoin]
    norm_num
  have hp2 : scopedReplace
      "<d xmlns:w=\"urn:w\"><w:t>No. 25-999</w:t><w:t>APPELLANTS OPENING BRIEF</w:t><w:t>Hon. Stacy Beckerman</w:t></d>"
      "APPELLANTS OPENING BRIEF" "REPLY BRIEF"
      = Except.ok
          ("<d xmlns:w=\"urn:w\"><w:t>No. 25-999</w:t><w:t>REPLY BRIEF</w:t><w:t>Hon. Stacy Beckerman</w:t></d>",
           1) := by
    unfold scopedReplace
    rw [scanRep_eq_segScan
      (show ('>':Char) ∉ "APPELLANTS OPENING BRIEF".toList by decide)]
    have hcnt : wtOccCount "APPELLANTS OPENING BRIEF".toList
        (splitGt "<d xmlns:w=\"urn:w\"><w:t>No. 25-999</w:t><w:t>APPELLANTS OPENING BRIEF</w:t><w:t>Hon. Stacy Beckerman</w:t></d>".toList)
        = 1 := by
      simp [splitGt, wtOccCount, hasWtOpen, wtOpen, wtCloseSeg]
    have hjoin : joinGt (segScan "APPELLANTS OPENING BRIEF".toList
        (htmlEscape "REPLY BRIEF").toList
        (splitGt "<d xmlns:w=\"urn:w\"><w:t>No. 25-999</w:t><w:t>APPELLANTS OPENING BRIEF</w:t><w:t>Hon. Stacy Beckerman</w:t></d>".toList)).1
        = "<d xmlns:w=\"urn:w\"><w:t>No. 25-999</w:t><w:t>REPLY BRIEF</w:t><w:t>Hon. Stacy Beckerman</w:t></d>".toList := by
      simp [splitGt, segScan, joinGt, hasWtOpen, wtOpen, wtCloseSeg,
        htmlEscape, htmlEscapeL, escapeChar]
    rw [hcnt, hjoin]
    norm_num
  have hp3 : scopedReplace
      "<d xmlns:w=\"urn:w\"><w:t>No. 25-999</w:t><w:t>REPLY BRIEF</w:t><w:t>Hon. Stacy Beckerman</w:t></d>"
      "Hon. Stacy Beckerman" "Hon. J. Smith"
      = Except.ok (outRun, 1) := by
    unfold scopedReplace
    rw [scanRep_eq_segScan
      (show ('>':Char) ∉ "Hon. Stacy Beckerman".toList by decide)]
    have hcnt : wtOccCount "Hon. Stacy Beckerman".toList
        (splitGt "<d xmlns:w=\"urn:w\"><w:t>No. 25-999</w:t><w:t>REPLY BRIEF</w:t><w:t>Hon. Stacy Beckerman</w:t></d>".toList)
        = 1 := by
      simp [splitGt, wtOccCount, hasWtOpen, wtOpen, wtCloseSeg]
    have hjoin : joinGt (segScan "Hon. Stacy Beckerman".toList
        (htmlEscape "Hon. J. Smith").toList
        (splitGt "<d xmlns:w=\"urn:w\"><w:t>No. 25-999</w:t><w:t>REPLY BRIEF</w:t><w:t>Hon. Stacy Beckerman</w:t></d>".toList)).1
        = outRun.toList := by
      simp [outRun, splitGt, segScan, joinGt, hasWtOpen, wtOpen, wtCloseSeg,
        htmlEscape, htmlEscapeL, escapeChar]
    rw [hcnt, hjoin]
    norm_num
  have hrun : applyReplacements xmlSelf valuesRun
      = Except.ok (outRun,
          [("case_number", 1), ("filing_name", 1), ("judge", 1)]) := by
    unfold applyReplacements PLACEHOLDERS
    rw [applyLoop]
    have hv1 : valuesRun "case_number" = some "No. 25-999" := by decide
    rw [hv1]
    dsimp only
    rw [hp1]
    dsimp only
    have hx1 : validateXml
        "<d xmlns:w=\"urn:w\"><w:t>No. 25-999</w:t><w:t>APPELLANTS OPENING BRIEF</w:t><w:t>Hon. Stacy Beckerman</w:t></d>"
        = true := by decide
    rw [hx1]
    simp only [if_true, List.nil_append]
    rw [applyLoop]
    have hv2 : valuesRun "filing_name" = some "REPLY BRIEF" := by decide
    rw [hv2]
    dsimp only
    rw [hp2]
    dsimp only
    have hx2 : validateXml
        "<d xmlns:w=\"urn:w\"><w:t>No. 25-999</w:t><w:t>REPLY BRIEF</w:t><w:t>Hon. Stacy Beckerman</w:t></d>"
        = true := by decide
    rw [hx2]
    simp only [if_true, List.cons_append, List.nil_append]
    rw [applyLoop]
    have hv3 : valuesRun "judge" = some "Hon. J. Smith" := by decide
    rw [hv3]
    dsimp only
    rw [hp3]
    dsimp only
    have hx3 : validateXml outRun = true := by decide
    rw [hx3]
    simp only [if_true, List.cons_append, List.nil_append]
    rw [applyLoop]
  have hvals : ∀ k r, valuesRun k = some r → htmlEscape r ≠ "No. 6461" := by
    intro k r hkr
    unfold valuesRun at hkr
    split_ifs at hkr
    · rw [Option.some.injEq] at hkr; subst hkr; decide
    · rw [Option.some.injEq] at hkr; subst hkr; decide
    · rw [Option.some.injEq] at hkr; subst hkr; decide
  have hcase : valuesRun "case_number" = some "No. 25-999" := by decide
  exact ⟨hrun, hvals, hcase, claimC9_amended hrun hvals hcase⟩

end GenerateCover
